import Mathlib

/-!
# trade_matching: a shallow embedding of `src/main.cpp`

The matching core of `Market` is embedded as pure functions over explicit state.

* `std::multimap<InternalOrder, QuantityType, Comp>` is the list of its entries in
  iteration order; `insert` places a new entry at the upper bound of its key (the
  behaviour of `std::multimap::insert` since C++11).
* `unsigned int` quantities and prices are natural numbers; the only addition on
  quantities (`+=` in `merge_trades`) is taken modulo `2 ^ 32`.  The subtractions in
  `_execute_order` subtract `std::min` of the two operands and therefore never wrap.
* `std::string` comparison is the lexicographic comparison of the character lists.
* `std::sort` is an insertion sort.  The order it gives to fragments with equal keys is
  not fixed by the standard; such fragments differ in quantity only, `merge_trades` adds
  them up, and the two fragments of a single match step always have different keys, so
  the report does not depend on it (`report_independent_of_sort`).
* Arrival order is not stored by the program; where a statement needs it the calls are
  replayed with a stamp on every entry (`stamped_run`), which erases to the plain market
  (`stamped_run_erase`).
-/

namespace TradeMatching

/-! ## Constants and typedefs -/

/-- The constant `SELL_SIDE` of the source. -/
abbrev SELL_SIDE : Bool := false

/-- The constant `BUY_SIDE` of the source. -/
abbrev BUY_SIDE : Bool := true

/-- Width of `unsigned int`: quantities live in `[0, UINT_RANGE)`. -/
abbrev UINT_RANGE : Nat := 2 ^ 32

/-- Internal representation of a resting order in the market (`struct InternalOrder`). -/
structure InternalOrder where
  trader_id : String
  price : Nat
deriving DecidableEq, Repr

/-- Representation of a trade or aggressor order (`struct Order : InternalOrder`). -/
structure Order extends InternalOrder where
  side : Bool
  quantity : Nat
deriving DecidableEq, Repr

/-- The method `Order::exhausted`. -/
def Order.exhausted (o : Order) : Bool := o.quantity == 0

/-- The type `Trades = std::vector<Order>`. -/
abbrev Trades := List Order

/-- The entries of an `InternalOrders<Comp>` multimap, in iteration order. -/
abbrev InternalOrders := List (InternalOrder × Nat)

/-! ## Comparators -/

/-- Comparator `SellComp`: selling orders are sorted by price from lowest to highest. -/
def SellComp (o1 o2 : InternalOrder) : Bool := decide (o1.price < o2.price)

/-- Comparator `BuyComp`: buying orders are sorted by price from highest to lowest. -/
def BuyComp (o1 o2 : InternalOrder) : Bool := decide (o1.price > o2.price)

/-- The comparison `operator<` of `std::string`: lexicographic on the characters. -/
def string_lt (s1 s2 : String) : Bool := decide (s1.toList < s2.toList)

/-- Comparator `TradeComp`: `std::tie(trader_id, side, price) < std::tie(...)`, the
lexicographic comparison of tuples. -/
def TradeComp (o1 o2 : Order) : Bool :=
  string_lt o1.trader_id o2.trader_id ||
    (!string_lt o2.trader_id o1.trader_id &&
      (decide (o1.side < o2.side) ||
        (!decide (o2.side < o1.side) && decide (o1.price < o2.price))))

/-! ## The multimap operations used by the engine -/

/-- Insertion `std::multimap::insert`: the new entry goes to the upper bound of its key,
that is before the first entry that the comparator orders after the new key. -/
def multimap_insert (comp : InternalOrder → InternalOrder → Bool)
    (k : InternalOrder) (q : Nat) : InternalOrders → InternalOrders
  | [] => [(k, q)]
  | e :: tl =>
    if comp k e.1 then (k, q) :: e :: tl
    else e :: multimap_insert comp k q tl

/-! ## The matching loop -/

/-- State of the `for` loop of `_execute_order` when it ends. -/
structure ScanResult where
  /-- the opposing book with the decremented quantities, before the prefix erase -/
  opposing : InternalOrders
  /-- the aggressor order with its remaining quantity -/
  aggr : Order
  /-- the counter `exhausted_rest_orders` -/
  exhausted_rest_orders : Nat
  /-- the fragments pushed onto `trades`, in emission order -/
  trades : Trades
deriving DecidableEq, Repr

/-- The range-`for` loop of `_execute_order` over `opposing_orders`; `same_comp` is
`same_side_orders.key_comp()`, so `price_acceptable = std::not_fn(same_comp)`. -/
def scan (same_comp : InternalOrder → InternalOrder → Bool) :
    InternalOrders → Order → ScanResult
  | [], aggr => ⟨[], aggr, 0, []⟩
  | (rest_order, rest_quantity) :: tl, aggr =>
    if !(!same_comp rest_order aggr.toInternalOrder) || aggr.exhausted then
      ⟨(rest_order, rest_quantity) :: tl, aggr, 0, []⟩
    else
      let overlap_quantity := min rest_quantity aggr.quantity
      let aggr1 : Order := { aggr with quantity := aggr.quantity - overlap_quantity }
      let rest_quantity1 := rest_quantity - overlap_quantity
      let r := scan same_comp tl aggr1
      ⟨(rest_order, rest_quantity1) :: r.opposing, r.aggr,
        (if rest_quantity1 = 0 then 1 else 0) + r.exhausted_rest_orders,
        ⟨⟨aggr1.trader_id, rest_order.price⟩, aggr1.side, overlap_quantity⟩ ::
        ⟨⟨rest_order.trader_id, rest_order.price⟩, !aggr1.side, overlap_quantity⟩ ::
        r.trades⟩

/-- Result of `_execute_order`: the returned trades and the final values of its three
reference parameters. -/
structure ExecResult where
  trades : Trades
  opposing_orders : InternalOrders
  same_side_orders : InternalOrders
  aggr_order : Order
deriving DecidableEq, Repr

/-- The method `Market::_execute_order`. -/
def _execute_order (same_comp : InternalOrder → InternalOrder → Bool)
    (opposing_orders same_side_orders : InternalOrders) (aggr_order : Order) : ExecResult :=
  if opposing_orders.isEmpty then
    ⟨[], opposing_orders,
      multimap_insert same_comp aggr_order.toInternalOrder aggr_order.quantity same_side_orders,
      aggr_order⟩
  else
    let r := scan same_comp opposing_orders aggr_order
    let opposing1 :=
      if r.exhausted_rest_orders ≠ 0 then r.opposing.drop r.exhausted_rest_orders
      else r.opposing
    let same1 :=
      if !r.aggr.exhausted then
        multimap_insert same_comp r.aggr.toInternalOrder r.aggr.quantity same_side_orders
      else same_side_orders
    ⟨r.trades, opposing1, same1, r.aggr⟩

/-! ## Trade aggregation -/

/-- The loops of `merge_trades` from the point where `cur` is `*merge_begin` and the
argument is the part of the vector from `merge_end` on: while `may_be_merged` holds the
next fragment is added into `cur` (modulo `2 ^ 32`) and erased, otherwise `cur` is
final and the next fragment becomes `*merge_begin`. -/
def merge_from (cur : Order) : Trades → Trades
  | [] => [cur]
  | t :: tl =>
    if !TradeComp cur t then
      merge_from { cur with quantity := (cur.quantity + t.quantity) % UINT_RANGE } tl
    else cur :: merge_from t tl

/-- The method `Market::merge_trades`. -/
def merge_trades : Trades → Trades
  | [] => []
  | t :: tl => merge_from t tl

/-- The ordering `std::sort(trades.begin(), trades.end(), TradeComp())`: `a` may stand
before `b` when `TradeComp b a` is false. -/
def sort_trades (trades : Trades) : Trades :=
  List.insertionSort (fun a b => TradeComp b a = false) trades

/-- The post-processing of `execute_order` on the raw fragments. -/
def aggregate (trades : Trades) : Trades :=
  if !trades.isEmpty then
    let sorted := sort_trades trades
    if sorted.length > 2 then merge_trades sorted else sorted
  else trades

/-- The two books of a `Market`. -/
structure Market where
  buy_orders : InternalOrders
  sell_orders : InternalOrders
deriving DecidableEq, Repr

/-- The constructor `Market()`: both books empty. -/
def Market.empty : Market := ⟨[], []⟩

/-- The raw call of `_execute_order` made by `execute_order` for the side of `order`. -/
def raw_execute (m : Market) (order : Order) : ExecResult :=
  if order.side = BUY_SIDE then _execute_order BuyComp m.sell_orders m.buy_orders order
  else _execute_order SellComp m.buy_orders m.sell_orders order

/-- The method `Market::execute_order`: the returned trades and the market afterwards. -/
def execute_order (m : Market) (order : Order) : Trades × Market :=
  let r := raw_execute m order
  (aggregate r.trades,
    if order.side = BUY_SIDE then ⟨r.same_side_orders, r.opposing_orders⟩
    else ⟨r.opposing_orders, r.same_side_orders⟩)

/-- The market after a sequence of `execute_order` calls, starting from `m`. -/
def run (m : Market) : List Order → Market
  | [] => m
  | o :: os => run (execute_order m o).2 os

/-- Incoming order `Sell(trader, qty, price)`. -/
def Sell (trader : String) (qty price : Nat) : Order := ⟨⟨trader, price⟩, SELL_SIDE, qty⟩

/-- Incoming order `Buy(trader, qty, price)`. -/
def Buy (trader : String) (qty price : Nat) : Order := ⟨⟨trader, price⟩, BUY_SIDE, qty⟩

/-- The key `(trader_id, side, price)` compared by `TradeComp`. -/
def trade_key (o : Order) : String × Bool × Nat := (o.trader_id, o.side, o.price)

/-- The key of a fragment in the lexicographic order of triples. -/
def lex_key (o : Order) : String ×ₗ Bool ×ₗ Nat := toLex (o.trader_id, toLex (o.side, o.price))

/-- Sum of the quantities of the fragments of `l` that satisfy `p` (exact, in `Nat`). -/
def qty_sum (p : Order → Bool) (l : Trades) : Nat := ((l.filter p).map (·.quantity)).sum

/-- Sum of the quantities of the fragments of `l` whose key is `k`. -/
def key_sum (k : String × Bool × Nat) (l : Trades) : Nat := qty_sum (fun t => trade_key t == k) l

/-- Sum of the quantities of the fragments of `l` on side `s`. -/
def side_sum (s : Bool) (l : Trades) : Nat := qty_sum (fun t => t.side == s) l

/-- The book an aggressor on `side` is matched against. -/
def Market.opposing (m : Market) (side : Bool) : InternalOrders :=
  if side = BUY_SIDE then m.sell_orders else m.buy_orders

/-- The book in which the remainder of an aggressor on `side` comes to rest. -/
def Market.same_side (m : Market) (side : Bool) : InternalOrders :=
  if side = BUY_SIDE then m.buy_orders else m.sell_orders

/-- The test `price_acceptable(rest_order, aggr_order)` of `_execute_order` for an aggressor
on `side`: the negated comparator of the aggressor's own book. -/
def price_acceptable (side : Bool) (rest_order aggr_order : InternalOrder) : Bool :=
  if side = BUY_SIDE then !BuyComp rest_order aggr_order else !SellComp rest_order aggr_order

/-! ## Arrival stamps

The multimap does not record when an entry was inserted.  To speak about arrival order
the books are replayed with a stamp on every entry: the number of the `execute_order`
call that inserted it.  The stamped operations make the same comparisons as the plain
ones and never read a stamp; erasing the stamps gives back the plain market. -/

/-- Book entries paired with the number of the call that inserted them. -/
abbrev StampedOrders := List ((InternalOrder × Nat) × Nat)

/-- Insertion `multimap_insert` carrying the stamp `n` of the new entry. -/
def stamped_insert (comp : InternalOrder → InternalOrder → Bool)
    (k : InternalOrder) (q n : Nat) : StampedOrders → StampedOrders
  | [] => [((k, q), n)]
  | e :: tl =>
    if comp k e.1.1 then ((k, q), n) :: e :: tl
    else e :: stamped_insert comp k q n tl

/-- The opposing book left by the loop `scan`, stamps carried along. -/
def stamped_scan (same_comp : InternalOrder → InternalOrder → Bool) :
    StampedOrders → Order → StampedOrders
  | [], _ => []
  | ((rest_order, rest_quantity), n) :: tl, aggr =>
    if !(!same_comp rest_order aggr.toInternalOrder) || aggr.exhausted then
      ((rest_order, rest_quantity), n) :: tl
    else
      let overlap_quantity := min rest_quantity aggr.quantity
      ((rest_order, rest_quantity - overlap_quantity), n) ::
        stamped_scan same_comp tl { aggr with quantity := aggr.quantity - overlap_quantity }

/-- The two books after `_execute_order`, stamps carried along; the counter
`exhausted_rest_orders` and the remainder of the aggressor are those of `scan`. -/
def stamped_execute_side (same_comp : InternalOrder → InternalOrder → Bool)
    (opposing_orders same_side_orders : StampedOrders) (aggr_order : Order) (n : Nat) :
    StampedOrders × StampedOrders :=
  if opposing_orders.isEmpty then
    (opposing_orders,
      stamped_insert same_comp aggr_order.toInternalOrder aggr_order.quantity n same_side_orders)
  else
    let r := scan same_comp (opposing_orders.map Prod.fst) aggr_order
    let opposing1 :=
      if r.exhausted_rest_orders ≠ 0 then
        (stamped_scan same_comp opposing_orders aggr_order).drop r.exhausted_rest_orders
      else stamped_scan same_comp opposing_orders aggr_order
    let same1 :=
      if !r.aggr.exhausted then
        stamped_insert same_comp r.aggr.toInternalOrder r.aggr.quantity n same_side_orders
      else same_side_orders
    (opposing1, same1)

/-- A market whose entries carry arrival stamps; `clock` counts the calls made so far. -/
structure StampedMarket where
  buy_orders : StampedOrders
  sell_orders : StampedOrders
  clock : Nat
deriving DecidableEq, Repr

/-- The empty stamped market. -/
def StampedMarket.empty : StampedMarket := ⟨[], [], 0⟩

/-- The plain market under a stamped one. -/
def StampedMarket.erase (sm : StampedMarket) : Market :=
  ⟨sm.buy_orders.map Prod.fst, sm.sell_orders.map Prod.fst⟩

/-- The stamped book an aggressor on `side` is matched against. -/
def StampedMarket.opposing (sm : StampedMarket) (side : Bool) : StampedOrders :=
  if side = BUY_SIDE then sm.sell_orders else sm.buy_orders

/-- One `execute_order` call on the stamped market; the entry it inserts, if any, gets the
current `clock` as its stamp. -/
def stamped_execute (sm : StampedMarket) (order : Order) : StampedMarket :=
  if order.side = BUY_SIDE then
    let r := stamped_execute_side BuyComp sm.sell_orders sm.buy_orders order sm.clock
    ⟨r.2, r.1, sm.clock + 1⟩
  else
    let r := stamped_execute_side SellComp sm.buy_orders sm.sell_orders order sm.clock
    ⟨r.1, r.2, sm.clock + 1⟩

/-- The stamped market after a sequence of calls. -/
def stamped_run (sm : StampedMarket) : List Order → StampedMarket
  | [] => sm
  | o :: os => stamped_run (stamped_execute sm o) os

/-- The quantity with which the entry stamped `n` rests in `book`; 0 when it is absent. -/
def stamped_quantity (book : StampedOrders) (n : Nat) : Nat :=
  match book.find? (fun e => e.2 == n) with
  | some e => e.1.2
  | none => 0

/-- Priority of `a` over `b` in a book ordered by `comp`: `b` is not ordered before `a`,
and `a` has the strictly better price or the earlier stamp; stamps are distinct. -/
def has_priority (comp : InternalOrder → InternalOrder → Bool)
    (a b : (InternalOrder × Nat) × Nat) : Prop :=
  comp b.1.1 a.1.1 = false ∧ (comp a.1.1 b.1.1 = true ∨ a.2 < b.2) ∧ a.2 ≠ b.2

/-- Invariant of the stamped market: each book lists its entries by priority, and every
stamp is the number of an earlier call. -/
def StampedMarket.ordered (sm : StampedMarket) : Prop :=
  List.Pairwise (has_priority BuyComp) sm.buy_orders ∧
    List.Pairwise (has_priority SellComp) sm.sell_orders ∧
    (∀ e ∈ sm.buy_orders, e.2 < sm.clock) ∧ (∀ e ∈ sm.sell_orders, e.2 < sm.clock)

/-- The facts about a price comparator used to keep a book ordered: it is asymmetric, and
an order strictly before `h` is strictly before everything that is not before `h`. -/
def comp_ok (c : InternalOrder → InternalOrder → Bool) : Prop :=
  (∀ a b, c a b = true → c b a = false) ∧
    (∀ k h e, c k h = true → c e h = false → c k e = true)

/-- Three resting Sells, the worst price inserted first: Eve:5@101 (call 0), then
Dan:5@100 (call 1) and Gus:5@100 (call 2). -/
def priority_example : List Order := [Sell "Eve" 5 101, Sell "Dan" 5 100, Sell "Gus" 5 100]

/-- The sums formed by the statement `merge_begin->quantity += merge_end->quantity` of
`merge_trades`, each taken before its reduction modulo `2 ^ 32`, in the order in which the
loops of `merge_from` compute them. -/
def merge_from_sums (cur : Order) : Trades → List Nat
  | [] => []
  | t :: tl =>
    if !TradeComp cur t then
      (cur.quantity + t.quantity) ::
        merge_from_sums { cur with quantity := (cur.quantity + t.quantity) % UINT_RANGE } tl
    else merge_from_sums t tl

/-- The sums formed by one call of `merge_trades`. -/
def merge_trades_sums : Trades → List Nat
  | [] => []
  | t :: tl => merge_from_sums t tl

/-- The sums formed by `merge_trades` inside `execute_order`; none when it is not called. -/
def execute_order_sums (m : Market) (order : Order) : List Nat :=
  if (sort_trades (raw_execute m order).trades).length > 2 then
    merge_trades_sums (sort_trades (raw_execute m order).trades)
  else []

/-- Total resting quantity of a book. -/
def total_quantity (book : InternalOrders) : Nat := (book.map Prod.snd).sum

/-- The comparator `same_side_orders.key_comp()` seen by `_execute_order` for an aggressor
on `side`. -/
def same_comp (side : Bool) : InternalOrder → InternalOrder → Bool :=
  if side = BUY_SIDE then BuyComp else SellComp

/-- A market is uncrossed when every resting bid is priced below every resting ask. -/
def Market.uncrossed (m : Market) : Prop :=
  ∀ b ∈ m.buy_orders, ∀ s ∈ m.sell_orders, b.1.price < s.1.price

/-- The fact about the comparators of the two books used to keep the market uncrossed: an
opposing entry that does not stand before an unacceptable one is unacceptable too. -/
def comp_opposed (c copp : InternalOrder → InternalOrder → Bool) : Prop :=
  ∀ e e1 k, c e k = true → copp e1 e = false → c e1 k = true

/-! ## Comparator facts -/

theorem string_lt_iff (s1 s2 : String) : string_lt s1 s2 = true ↔ s1 < s2 := by
  simp [string_lt, String.lt_iff_toList_lt]

theorem TradeComp_iff (a b : Order) : TradeComp a b = true ↔ lex_key a < lex_key b := by
  unfold TradeComp lex_key string_lt
  rw [Prod.Lex.lt_iff]
  simp only [Bool.or_eq_true, Bool.and_eq_true, Bool.not_eq_true', decide_eq_false_iff_not,
    decide_eq_true_eq, Prod.Lex.lt_iff, ← String.lt_iff_toList_lt]
  constructor
  · rintro (h | ⟨h1, h2⟩)
    · exact Or.inl h
    · rcases lt_trichotomy a.trader_id b.trader_id with h | h | h
      · exact Or.inl h
      · refine Or.inr ⟨h, ?_⟩
        rcases h2 with h2 | ⟨h2, h3⟩
        · exact Or.inl h2
        · rcases lt_trichotomy a.side b.side with h4 | h4 | h4
          · exact Or.inl h4
          · exact Or.inr ⟨h4, h3⟩
          · exact absurd h4 h2
      · exact absurd h h1
  · rintro (h | ⟨h1, h2⟩)
    · exact Or.inl h
    · have h1 : a.trader_id = b.trader_id := h1
      refine Or.inr ⟨by rw [h1]; exact lt_irrefl _, ?_⟩
      rcases h2 with h2 | ⟨h2, h3⟩
      · exact Or.inl h2
      · have h2 : a.side = b.side := h2
        exact Or.inr ⟨by rw [h2]; exact lt_irrefl _, h3⟩

theorem TradeComp_false_iff (a b : Order) : TradeComp b a = false ↔ lex_key a ≤ lex_key b := by
  rw [← not_lt, ← TradeComp_iff]; simp

theorem lex_key_eq_iff (a b : Order) : lex_key a = lex_key b ↔ trade_key a = trade_key b := by
  unfold lex_key trade_key
  constructor
  · intro h
    have h1 := congrArg (fun x => (ofLex x).1) h
    have h2 := congrArg (fun x => (ofLex (ofLex x).2).1) h
    have h3 := congrArg (fun x => (ofLex (ofLex x).2).2) h
    simp at h1 h2 h3
    simp [h1, h2, h3]
  · intro h
    simp at h
    simp [h.1, h.2.1, h.2.2]

theorem TradeComp_both_false_iff (a b : Order) :
    (TradeComp a b = false ∧ TradeComp b a = false) ↔ trade_key a = trade_key b := by
  rw [TradeComp_false_iff, TradeComp_false_iff, ← lex_key_eq_iff]
  exact ⟨fun h => le_antisymm h.2 h.1, fun h => ⟨h.ge, h.le⟩⟩

theorem TradeComp_of_key_eq_left {a a1 : Order} (h : trade_key a = trade_key a1) (b : Order) :
    TradeComp a b = TradeComp a1 b := by
  simp only [trade_key, Prod.mk.injEq] at h
  simp [TradeComp, h.1, h.2.1, h.2.2]

theorem TradeComp_of_key_eq_right {b b1 : Order} (h : trade_key b = trade_key b1) (a : Order) :
    TradeComp a b = TradeComp a b1 := by
  simp only [trade_key, Prod.mk.injEq] at h
  simp [TradeComp, h.1, h.2.1, h.2.2]

theorem TradeComp_trans {a b c : Order} (h1 : TradeComp a b = true) (h2 : TradeComp b c = true) :
    TradeComp a c = true := by
  rw [TradeComp_iff] at *; exact lt_trans h1 h2

theorem TradeComp_irrefl (a : Order) : TradeComp a a = false := by
  rw [TradeComp_false_iff]

theorem TradeLe_total (a b : Order) : TradeComp b a = false ∨ TradeComp a b = false := by
  rw [TradeComp_false_iff, TradeComp_false_iff]; exact le_total _ _

theorem TradeLe_trans {a b c : Order} (h1 : TradeComp b a = false) (h2 : TradeComp c b = false) :
    TradeComp c a = false := by
  rw [TradeComp_false_iff] at *; exact le_trans h1 h2

/-! ## Sorting -/

theorem sort_trades_perm (l : Trades) : (sort_trades l).Perm l :=
  List.perm_insertionSort _ l

theorem sort_trades_sorted (l : Trades) :
    List.Pairwise (fun a b => TradeComp b a = false) (sort_trades l) :=
  @List.sorted_insertionSort Order (fun a b => TradeComp b a = false) _
    ⟨fun a b => TradeLe_total a b⟩ ⟨fun _ _ _ h1 h2 => TradeLe_trans h1 h2⟩ l

theorem sort_trades_of_sorted {l : Trades}
    (h : List.Pairwise (fun a b => TradeComp b a = false) l) : sort_trades l = l :=
  List.Sorted.insertionSort_eq h

theorem sort_trades_length (l : Trades) : (sort_trades l).length = l.length :=
  (sort_trades_perm l).length_eq

theorem strict_imp_sorted {l : Trades} (h : List.Pairwise (fun a b => TradeComp a b = true) l) :
    List.Pairwise (fun a b => TradeComp b a = false) l := by
  refine h.imp ?_
  intro a b hab
  rw [TradeComp_iff] at hab
  rw [TradeComp_false_iff]
  exact hab.le

/-! ## Quantity sums -/

theorem qty_sum_nil (p : Order → Bool) : qty_sum p [] = 0 := rfl

theorem qty_sum_cons (p : Order → Bool) (t : Order) (l : Trades) :
    qty_sum p (t :: l) = (if p t then t.quantity else 0) + qty_sum p l := by
  unfold qty_sum
  by_cases h : p t = true <;> simp [List.filter_cons, h]

theorem qty_sum_perm (p : Order → Bool) {l1 l2 : Trades} (h : l1.Perm l2) :
    qty_sum p l1 = qty_sum p l2 :=
  ((h.filter p).map _).sum_eq

theorem qty_sum_mono {p q : Order → Bool} (hpq : ∀ t, p t = true → q t = true) (l : Trades) :
    qty_sum p l ≤ qty_sum q l := by
  induction l with
  | nil => simp [qty_sum_nil]
  | cons t tl ih =>
    rw [qty_sum_cons, qty_sum_cons]
    by_cases h : p t = true
    · simp only [h, hpq t h, if_true]; omega
    · have h0 : (if p t = true then t.quantity else 0) = 0 := by simp [h]
      rw [h0]
      omega

theorem key_sum_le_side_sum (k : String × Bool × Nat) (l : Trades) :
    key_sum k l ≤ side_sum k.2.1 l := by
  apply qty_sum_mono
  intro t ht
  simp only [trade_key, beq_iff_eq] at ht
  simp [← ht]

/-! ## Merging -/

theorem merge_from_key_mem (cur : Order) (l : Trades) :
    ∀ x ∈ merge_from cur l, ∃ y ∈ cur :: l, trade_key x = trade_key y := by
  induction l generalizing cur with
  | nil => intro x hx; simp [merge_from] at hx; exact ⟨cur, by simp, by rw [hx]⟩
  | cons t tl ih =>
    intro x hx
    unfold merge_from at hx
    split at hx
    · obtain ⟨y, hy, hxy⟩ := ih _ x hx
      rcases List.mem_cons.1 hy with h | h
      · exact ⟨cur, by simp, by rw [hxy, h]; rfl⟩
      · exact ⟨y, by simp [h], hxy⟩
    · rcases List.mem_cons.1 hx with h | h
      · exact ⟨cur, by simp, by rw [h]⟩
      · obtain ⟨y, hy, hxy⟩ := ih _ x h
        exact ⟨y, List.mem_cons_of_mem _ hy, hxy⟩

theorem merge_from_strict (cur : Order) (l : Trades)
    (h : List.Pairwise (fun a b => TradeComp b a = false) (cur :: l)) :
    List.Pairwise (fun a b => TradeComp a b = true) (merge_from cur l) := by
  induction l generalizing cur with
  | nil => simp [merge_from]
  | cons t tl ih =>
    rw [List.pairwise_cons] at h
    obtain ⟨hcur, htl⟩ := h
    unfold merge_from
    split
    · apply ih
      rw [List.pairwise_cons]
      refine ⟨fun b hb => ?_, (List.pairwise_cons.1 htl).2⟩
      have := hcur b (List.mem_cons_of_mem _ hb)
      rw [← this]
      exact TradeComp_of_key_eq_right rfl b
    · rename_i hct
      have hct : TradeComp cur t = true := by simpa using hct
      rw [List.pairwise_cons]
      refine ⟨fun x hx => ?_, ih t htl⟩
      obtain ⟨y, hy, hxy⟩ := merge_from_key_mem t tl x hx
      rw [TradeComp_of_key_eq_right hxy]
      rcases List.mem_cons.1 hy with h | h
      · rw [h]; exact hct
      · have h1 := (List.pairwise_cons.1 htl).1 y h
        rw [TradeComp_iff] at hct ⊢
        rw [TradeComp_false_iff] at h1
        exact lt_of_lt_of_le hct h1

theorem merge_from_of_strict (cur : Order) (l : Trades)
    (h : List.Pairwise (fun a b => TradeComp a b = true) (cur :: l)) :
    merge_from cur l = cur :: l := by
  induction l generalizing cur with
  | nil => simp [merge_from]
  | cons t tl ih =>
    rw [List.pairwise_cons] at h
    have hct := h.1 t (by simp)
    unfold merge_from
    simp [hct, ih t h.2]

theorem merge_trades_of_strict (l : Trades)
    (h : List.Pairwise (fun a b => TradeComp a b = true) l) : merge_trades l = l := by
  cases l with
  | nil => rfl
  | cons t tl => exact merge_from_of_strict t tl h

theorem merge_trades_strict (l : Trades)
    (h : List.Pairwise (fun a b => TradeComp b a = false) l) :
    List.Pairwise (fun a b => TradeComp a b = true) (merge_trades l) := by
  cases l with
  | nil => simp [merge_trades]
  | cons t tl => exact merge_from_strict t tl h

theorem merge_from_key_complete (cur : Order) (l : Trades)
    (h : List.Pairwise (fun a b => TradeComp b a = false) (cur :: l)) :
    ∀ y ∈ cur :: l, ∃ x ∈ merge_from cur l, trade_key x = trade_key y := by
  induction l generalizing cur with
  | nil => intro y hy; simp at hy; exact ⟨cur, by simp [merge_from], by rw [hy]⟩
  | cons t tl ih =>
    rw [List.pairwise_cons] at h
    obtain ⟨hcur, htl⟩ := h
    intro y hy
    unfold merge_from
    split
    · rename_i hct
      have hct : TradeComp cur t = false := by simpa using hct
      have hkey : trade_key cur = trade_key t :=
        (TradeComp_both_false_iff cur t).1 ⟨hct, hcur t (by simp)⟩
      have hs : List.Pairwise (fun a b => TradeComp b a = false)
          ({ cur with quantity := (cur.quantity + t.quantity) % UINT_RANGE } :: tl) := by
        rw [List.pairwise_cons]
        refine ⟨fun b hb => ?_, (List.pairwise_cons.1 htl).2⟩
        have := hcur b (List.mem_cons_of_mem _ hb)
        rw [← this]
        exact TradeComp_of_key_eq_right rfl b
      rcases List.mem_cons.1 hy with h | h
      · obtain ⟨x, hx, hxk⟩ := ih _ hs _ (List.mem_cons_self _ _)
        exact ⟨x, hx, by rw [hxk, h]; rfl⟩
      · rcases List.mem_cons.1 h with h | h
        · obtain ⟨x, hx, hxk⟩ := ih _ hs _ (List.mem_cons_self _ _)
          exact ⟨x, hx, by rw [hxk, h, ← hkey]; rfl⟩
        · exact ih _ hs y (List.mem_cons_of_mem _ h)
    · rcases List.mem_cons.1 hy with h | h
      · exact ⟨cur, by simp, by rw [h]⟩
      · obtain ⟨x, hx, hxk⟩ := ih t htl y h
        exact ⟨x, List.mem_cons_of_mem _ hx, hxk⟩

theorem qty_sum_merge_step (p : Order → Bool)
    (hp : ∀ a b, trade_key a = trade_key b → p a = p b) (cur t cur1 : Order) (tl : Trades)
    (hk : trade_key cur = trade_key t) (hk1 : trade_key cur1 = trade_key cur)
    (hq : cur1.quantity = cur.quantity + t.quantity) :
    qty_sum p (cur1 :: tl) = qty_sum p (cur :: t :: tl) := by
  rw [qty_sum_cons, qty_sum_cons, qty_sum_cons, hp cur1 cur hk1, ← hp cur t hk, hq]
  cases p cur <;> simp; omega

theorem key_pred_invariant (k : String × Bool × Nat) :
    ∀ a b : Order, trade_key a = trade_key b →
      (fun t => trade_key t == k) a = (fun t => trade_key t == k) b := by
  intro a b h; simp [h]

theorem side_pred_invariant (s : Bool) :
    ∀ a b : Order, trade_key a = trade_key b →
      (fun t : Order => t.side == s) a = (fun t : Order => t.side == s) b := by
  intro a b h
  simp only [trade_key, Prod.mk.injEq] at h
  simp [h.2.1]

theorem key_sum_self_le (cur : Order) (l : Trades) :
    cur.quantity ≤ key_sum (trade_key cur) (cur :: l) := by
  unfold key_sum
  rw [qty_sum_cons]
  simp

/-- On a sorted vector whose per-key sums fit in `unsigned int`, `merge_trades` keeps every
sum of quantities over a set of keys: the additions modulo `2 ^ 32` are exact. -/
theorem merge_from_sum (p : Order → Bool)
    (hp : ∀ a b, trade_key a = trade_key b → p a = p b) (cur : Order) (l : Trades)
    (hs : List.Pairwise (fun a b => TradeComp b a = false) (cur :: l))
    (hw : ∀ k, key_sum k (cur :: l) < UINT_RANGE) :
    qty_sum p (merge_from cur l) = qty_sum p (cur :: l) := by
  induction l generalizing cur with
  | nil => simp [merge_from]
  | cons t tl ih =>
    rw [List.pairwise_cons] at hs
    obtain ⟨hcur, htl⟩ := hs
    unfold merge_from
    split
    · rename_i hct
      have hct : TradeComp cur t = false := by simpa using hct
      have hkey : trade_key cur = trade_key t :=
        (TradeComp_both_false_iff cur t).1 ⟨hct, hcur t (by simp)⟩
      have hle : cur.quantity + t.quantity < UINT_RANGE := by
        have h1 := hw (trade_key cur)
        unfold key_sum at h1
        rw [qty_sum_cons, qty_sum_cons] at h1
        simp only [beq_self_eq_true, if_true, ← hkey] at h1
        omega
      have hq : (cur.quantity + t.quantity) % UINT_RANGE = cur.quantity + t.quantity :=
        Nat.mod_eq_of_lt hle
      have hstep : ∀ q : Order → Bool, (∀ a b, trade_key a = trade_key b → q a = q b) →
          qty_sum q ({ cur with quantity := (cur.quantity + t.quantity) % UINT_RANGE } :: tl)
            = qty_sum q (cur :: t :: tl) := fun q hq1 =>
        qty_sum_merge_step q hq1 cur t _ tl hkey rfl hq
      rw [← hstep p hp]
      apply ih
      · rw [List.pairwise_cons]
        refine ⟨fun b hb => ?_, (List.pairwise_cons.1 htl).2⟩
        have := hcur b (List.mem_cons_of_mem _ hb)
        rw [← this]
        exact TradeComp_of_key_eq_right rfl b
      · intro k
        unfold key_sum
        rw [hstep _ (key_pred_invariant k)]
        exact hw k
    · rw [qty_sum_cons, qty_sum_cons p cur (t :: tl)]
      congr 1
      apply ih t htl
      intro k
      refine lt_of_le_of_lt ?_ (hw k)
      unfold key_sum
      rw [qty_sum_cons _ cur (t :: tl)]
      omega

theorem merge_trades_sum (p : Order → Bool)
    (hp : ∀ a b, trade_key a = trade_key b → p a = p b) (l : Trades)
    (hs : List.Pairwise (fun a b => TradeComp b a = false) l)
    (hw : ∀ k, key_sum k l < UINT_RANGE) :
    qty_sum p (merge_trades l) = qty_sum p l := by
  cases l with
  | nil => rfl
  | cons t tl => exact merge_from_sum p hp t tl hs hw

/-! ## The matching loop -/

theorem scan_nil (c : InternalOrder → InternalOrder → Bool) (a : Order) :
    scan c [] a = ⟨[], a, 0, []⟩ := rfl

theorem scan_cons_stop (c : InternalOrder → InternalOrder → Bool) (ro : InternalOrder) (rq : Nat)
    (tl : InternalOrders) (a : Order) (h : c ro a.toInternalOrder = true ∨ a.quantity = 0) :
    scan c ((ro, rq) :: tl) a = ⟨(ro, rq) :: tl, a, 0, []⟩ := by
  unfold scan
  rcases h with h | h <;> simp [h, Order.exhausted]

theorem scan_cons_step (c : InternalOrder → InternalOrder → Bool) (ro : InternalOrder) (rq : Nat)
    (tl : InternalOrders) (a : Order) (h1 : c ro a.toInternalOrder = false)
    (h2 : a.quantity ≠ 0) :
    scan c ((ro, rq) :: tl) a =
      ⟨(ro, rq - min rq a.quantity) ::
          (scan c tl { a with quantity := a.quantity - min rq a.quantity }).opposing,
        (scan c tl { a with quantity := a.quantity - min rq a.quantity }).aggr,
        (if rq - min rq a.quantity = 0 then 1 else 0) +
          (scan c tl { a with quantity := a.quantity - min rq a.quantity }).exhausted_rest_orders,
        ⟨⟨a.trader_id, ro.price⟩, a.side, min rq a.quantity⟩ ::
        ⟨⟨ro.trader_id, ro.price⟩, !a.side, min rq a.quantity⟩ ::
          (scan c tl { a with quantity := a.quantity - min rq a.quantity }).trades⟩ := by
  conv_lhs => unfold scan
  simp [h1, h2, Order.exhausted]

/-- Case analysis on the first iteration of the loop. -/
theorem scan_cases (c : InternalOrder → InternalOrder → Bool) (ro : InternalOrder)
    (a : Order) : (c ro a.toInternalOrder = true ∨ a.quantity = 0) ∨
      (c ro a.toInternalOrder = false ∧ a.quantity ≠ 0) := by
  by_cases h1 : c ro a.toInternalOrder = true
  · exact Or.inl (Or.inl h1)
  · by_cases h2 : a.quantity = 0
    · exact Or.inl (Or.inr h2)
    · exact Or.inr ⟨by simpa using h1, h2⟩

theorem scan_aggr (c : InternalOrder → InternalOrder → Bool) (l : InternalOrders) (a : Order) :
    (scan c l a).aggr.toInternalOrder = a.toInternalOrder ∧ (scan c l a).aggr.side = a.side ∧
      (scan c l a).aggr.quantity ≤ a.quantity := by
  induction l generalizing a with
  | nil => simp [scan_nil]
  | cons e tl ih =>
    obtain ⟨ro, rq⟩ := e
    rcases scan_cases c ro a with h | ⟨h1, h2⟩
    · simp [scan_cons_stop c ro rq tl a h]
    · rw [scan_cons_step c ro rq tl a h1 h2]
      obtain ⟨i1, i2, i3⟩ := ih { a with quantity := a.quantity - min rq a.quantity }
      refine ⟨i1, i2, ?_⟩
      simp only at i3 ⊢
      omega

theorem scan_side_sum (c : InternalOrder → InternalOrder → Bool) (l : InternalOrders)
    (a : Order) :
    side_sum a.side (scan c l a).trades = a.quantity - (scan c l a).aggr.quantity ∧
      side_sum (!a.side) (scan c l a).trades = a.quantity - (scan c l a).aggr.quantity := by
  induction l generalizing a with
  | nil => simp [scan_nil, side_sum, qty_sum_nil]
  | cons e tl ih =>
    obtain ⟨ro, rq⟩ := e
    rcases scan_cases c ro a with h | ⟨h1, h2⟩
    · simp [scan_cons_stop c ro rq tl a h, side_sum, qty_sum_nil]
    · rw [scan_cons_step c ro rq tl a h1 h2]
      obtain ⟨i1, i2⟩ := ih { a with quantity := a.quantity - min rq a.quantity }
      have i3 := (scan_aggr c tl { a with quantity := a.quantity - min rq a.quantity }).2.2
      simp only [side_sum] at i1 i2 ⊢
      simp only [qty_sum_cons, i1, i2]
      simp only at i3 ⊢
      constructor <;> simp <;> omega

theorem scan_trades_mem (c : InternalOrder → InternalOrder → Bool) (l : InternalOrders)
    (a : Order) : ∀ t ∈ (scan c l a).trades,
      ∃ e ∈ l, e.1.price = t.price ∧ c e.1 a.toInternalOrder = false := by
  induction l generalizing a with
  | nil => simp [scan_nil]
  | cons e tl ih =>
    obtain ⟨ro, rq⟩ := e
    rcases scan_cases c ro a with h | ⟨h1, h2⟩
    · simp [scan_cons_stop c ro rq tl a h]
    · rw [scan_cons_step c ro rq tl a h1 h2]
      intro t ht
      simp only [List.mem_cons] at ht
      rcases ht with ht | ht | ht
      · exact ⟨(ro, rq), by simp, by rw [ht], h1⟩
      · exact ⟨(ro, rq), by simp, by rw [ht], h1⟩
      · obtain ⟨e, he, hp, hc⟩ := ih _ t ht
        exact ⟨e, List.mem_cons_of_mem _ he, hp, hc⟩

/-- The raw fragments come in pairs: nothing, or an aggressor fragment and a counterparty
fragment on opposite sides followed by the fragments of the later iterations. -/
theorem scan_trades_shape (c : InternalOrder → InternalOrder → Bool) (l : InternalOrders)
    (a : Order) : (scan c l a).trades = [] ∨
      ∃ t1 t2 e l1 a1, (scan c l a).trades = t1 :: t2 :: (scan c l1 a1).trades ∧
        e ∈ l ∧ t1.trader_id = a.trader_id ∧ t1.side = a.side ∧ t2.side = !a.side ∧
        t2.trader_id = e.1.trader_id ∧ t1.price = e.1.price ∧ t2.price = e.1.price ∧
        t1.quantity = t2.quantity := by
  cases l with
  | nil => simp [scan_nil]
  | cons e tl =>
    obtain ⟨ro, rq⟩ := e
    rcases scan_cases c ro a with h | ⟨h1, h2⟩
    · simp [scan_cons_stop c ro rq tl a h]
    · rw [scan_cons_step c ro rq tl a h1 h2]
      exact Or.inr ⟨_, _, (ro, rq), tl, _, rfl, by simp, rfl, rfl, rfl, rfl, rfl, rfl, rfl⟩

/-! ## The raw call and the aggregation -/

theorem raw_execute_buy (m : Market) (order : Order) (h : order.side = BUY_SIDE) :
    raw_execute m order = _execute_order BuyComp m.sell_orders m.buy_orders order := by
  simp [raw_execute, h]

theorem raw_execute_sell (m : Market) (order : Order) (h : order.side = SELL_SIDE) :
    raw_execute m order = _execute_order SellComp m.buy_orders m.sell_orders order := by
  simp [raw_execute, h]

theorem _execute_order_trades (c : InternalOrder → InternalOrder → Bool)
    (opp same : InternalOrders) (a : Order) :
    (_execute_order c opp same a).trades = (scan c opp a).trades ∧
      (_execute_order c opp same a).aggr_order = (scan c opp a).aggr := by
  unfold _execute_order
  cases opp with
  | nil => simp [scan_nil]
  | cons e tl => simp

theorem merge_trades_key_mem (l : Trades) :
    ∀ x ∈ merge_trades l, ∃ y ∈ l, trade_key x = trade_key y := by
  cases l with
  | nil => simp [merge_trades]
  | cons t tl => exact merge_from_key_mem t tl

theorem aggregate_key_mem (l : Trades) :
    ∀ x ∈ aggregate l, ∃ y ∈ l, trade_key x = trade_key y := by
  intro x hx
  unfold aggregate at hx
  split at hx
  · simp only at hx
    split at hx
    · obtain ⟨y, hy, hxy⟩ := merge_trades_key_mem _ x hx
      exact ⟨y, (sort_trades_perm l).mem_iff.1 hy, hxy⟩
    · exact ⟨x, (sort_trades_perm l).mem_iff.1 hx, rfl⟩
  · exact ⟨x, hx, rfl⟩

/-- C1 (crossing correctness): every fragment returned by `execute_order` carries the price
of a resting order of the opposing book, and that price is acceptable to the incoming
order: at most its limit for a Buy, at least its limit for a Sell. -/
theorem crossing_correctness (m : Market) (order : Order) :
    ∀ t ∈ (execute_order m order).1,
      (order.side = BUY_SIDE →
        t.price ≤ order.price ∧ ∃ e ∈ m.sell_orders, e.1.price = t.price) ∧
      (order.side = SELL_SIDE →
        t.price ≥ order.price ∧ ∃ e ∈ m.buy_orders, e.1.price = t.price) := by
  intro t ht
  obtain ⟨y, hy, hty⟩ := aggregate_key_mem _ t ht
  have hprice : t.price = y.price := by
    simp only [trade_key, Prod.mk.injEq] at hty
    exact hty.2.2
  constructor
  · intro hside
    rw [raw_execute_buy m order hside, (_execute_order_trades _ _ _ _).1] at hy
    obtain ⟨e, he, hp, hc⟩ := scan_trades_mem _ _ _ y hy
    simp only [BuyComp, gt_iff_lt, decide_eq_false_iff_not, not_lt] at hc
    exact ⟨by omega, e, he, by omega⟩
  · intro hside
    rw [raw_execute_sell m order hside, (_execute_order_trades _ _ _ _).1] at hy
    obtain ⟨e, he, hp, hc⟩ := scan_trades_mem _ _ _ y hy
    simp only [SellComp, decide_eq_false_iff_not, not_lt] at hc
    exact ⟨by omega, e, he, by omega⟩

/-- Witness of C1 on Example 2: the fragment `Alice sells 4@100` returned for
`Buy(Bob, 4, 101)` is priced at most 101 and at the price of the resting Sell. -/
theorem crossing_correctness_witness :
    Sell "Alice" 4 100 ∈ (execute_order ⟨[], [(⟨"Alice", 100⟩, 10)]⟩ (Buy "Bob" 4 101)).1 ∧
    ((Buy "Bob" 4 101).side = BUY_SIDE →
      (Sell "Alice" 4 100).price ≤ (Buy "Bob" 4 101).price ∧
        ∃ e ∈ (⟨[], [(⟨"Alice", 100⟩, 10)]⟩ : Market).sell_orders,
          e.1.price = (Sell "Alice" 4 100).price) :=
  ⟨by decide,
    (crossing_correctness ⟨[], [(⟨"Alice", 100⟩, 10)]⟩ (Buy "Bob" 4 101)
      (Sell "Alice" 4 100) (by decide)).1⟩

/-! ## Zero-quantity orders -/

/-- C3 (failing input): on empty books `_execute_order` takes the empty-opposing-book branch,
which inserts without testing `exhausted()`; a Buy of quantity 0 is left resting in the bid
book with quantity 0. -/
theorem zero_quantity_order_rests :
    (execute_order Market.empty (Buy "A" 0 10)).2 = ⟨[(⟨"A", 10⟩, 0)], []⟩ ∧
      ∃ e ∈ (run Market.empty [Buy "A" 0 10]).buy_orders, e.2 = 0 := by
  decide

/-- C4 (failing input): a Sell of quantity 0 submitted to a market whose bid book is empty
returns no trades but is inserted into the ask book, so the call is not a no-op. -/
theorem zero_quantity_order_inserted :
    execute_order Market.empty (Sell "Z" 0 5) = ([], ⟨[], [(⟨"Z", 5⟩, 0)]⟩) ∧
      (execute_order Market.empty (Sell "Z" 0 5)).2 ≠ Market.empty := by
  decide

/-- With a non-empty opposing book the loop guard `aggr_order.exhausted()` makes a
zero-quantity order a no-op. -/
theorem zero_quantity_noop_of_opposing (m : Market) (order : Order)
    (hq : order.quantity = 0) (hne : m.opposing order.side ≠ []) :
    execute_order m order = ([], m) := by
  obtain ⟨b, s⟩ := m
  unfold execute_order raw_execute _execute_order
  by_cases hside : order.side = BUY_SIDE
  · simp only [Market.opposing, hside, if_true] at hne
    obtain ⟨e, tl, rfl⟩ := List.exists_cons_of_ne_nil hne
    simp [hside, scan_cons_stop BuyComp e.1 e.2 tl order (Or.inr hq), aggregate,
      Order.exhausted, hq]
  · simp only [Market.opposing, hside, if_false] at hne
    obtain ⟨e, tl, rfl⟩ := List.exists_cons_of_ne_nil hne
    simp [hside, scan_cons_stop SellComp e.1 e.2 tl order (Or.inr hq), aggregate,
      Order.exhausted, hq]

/-! ## A single match step -/

theorem sort_trades_pair (a b : Order) :
    sort_trades [a, b] = if TradeComp b a = true then [b, a] else [a, b] := by
  unfold sort_trades
  by_cases h : TradeComp b a = true <;> simp [List.insertionSort, List.orderedInsert, h]

/-- The raw fragments of any call are those of the loop over the opposing book. -/
theorem raw_execute_trades (m : Market) (order : Order) :
    ∃ c, (raw_execute m order).trades = (scan c (m.opposing order.side) order).trades ∧
      (raw_execute m order).aggr_order = (scan c (m.opposing order.side) order).aggr := by
  by_cases hside : order.side = BUY_SIDE
  · refine ⟨BuyComp, ?_⟩
    rw [raw_execute_buy m order hside]
    simpa [Market.opposing, hside] using _execute_order_trades BuyComp _ _ order
  · refine ⟨SellComp, ?_⟩
    rw [raw_execute_sell m order (by simpa using hside)]
    simpa [Market.opposing, hside] using _execute_order_trades SellComp _ _ order

/-- C6 (counterexample, Example 2): with Alice selling 10@100 at rest, `Buy(Bob, 4, 101)`
emits the raw fragments `[Bob buys 4@100, Alice sells 4@100]`, but `execute_order` sorts
them and returns Alice's fragment first. -/
theorem two_fragments_emission_order_counterexample :
    (raw_execute ⟨[], [(⟨"Alice", 100⟩, 10)]⟩ (Buy "Bob" 4 101)).trades =
        [Buy "Bob" 4 100, Sell "Alice" 4 100] ∧
      (execute_order ⟨[], [(⟨"Alice", 100⟩, 10)]⟩ (Buy "Bob" 4 101)).1 ≠
        [Buy "Bob" 4 100, Sell "Alice" 4 100] := by
  decide

/-- C6 (amended): when matching produces exactly two raw fragments `a` (aggressor) and `b`
(resting counterparty), `execute_order` returns both with their quantities untouched,
ordered by `TradeComp`: `[b, a]` when `TradeComp b a` holds, `[a, b]` otherwise. -/
theorem two_fragments_sorted (m : Market) (order a b : Order)
    (h : (raw_execute m order).trades = [a, b]) :
    (execute_order m order).1 = (if TradeComp b a = true then [b, a] else [a, b]) ∧
      a.trader_id = order.trader_id ∧ a.side = order.side ∧ b.side = !order.side ∧
      a.quantity = b.quantity ∧ a.price = b.price := by
  constructor
  · unfold execute_order
    simp only [h, aggregate]
    rw [sort_trades_pair]
    by_cases hba : TradeComp b a = true <;> simp [hba]
  · obtain ⟨c, hc, -⟩ := raw_execute_trades m order
    rw [hc] at h
    rcases scan_trades_shape c (m.opposing order.side) order with h0 | ⟨t1, t2, e, l1, a1, hs, -,
      h1, h2, h3, -, h5, h6, h7⟩
    · rw [h0] at h; cases h
    · rw [hs] at h
      simp only [List.cons.injEq] at h
      obtain ⟨rfl, rfl, -⟩ := h
      exact ⟨h1, h2, h3, h7, by rw [h5, h6]⟩

/-- Witness of C6 (amended) on Example 2: the report is `[Alice sells 4@100, Bob buys 4@100]`
and the ask book afterwards holds Alice:6@100. -/
theorem two_fragments_sorted_witness :
    (execute_order ⟨[], [(⟨"Alice", 100⟩, 10)]⟩ (Buy "Bob" 4 101)).1 =
        [Sell "Alice" 4 100, Buy "Bob" 4 100] ∧
      (execute_order ⟨[], [(⟨"Alice", 100⟩, 10)]⟩ (Buy "Bob" 4 101)).2 =
        ⟨[], [(⟨"Alice", 100⟩, 6)]⟩ :=
  ⟨(two_fragments_sorted ⟨[], [(⟨"Alice", 100⟩, 10)]⟩ (Buy "Bob" 4 101)
      (Buy "Bob" 4 100) (Sell "Alice" 4 100) (by decide)).1.trans (by decide), by decide⟩

/-! ## Orders that do not cross -/

theorem multimap_insert_split (c : InternalOrder → InternalOrder → Bool) (k : InternalOrder)
    (q : Nat) (l : InternalOrders) :
    ∃ pre post, l = pre ++ post ∧ multimap_insert c k q l = pre ++ (k, q) :: post ∧
      (∀ e ∈ pre, c k e.1 = false) ∧ (∀ e ∈ post.head?, c k e.1 = true) := by
  induction l with
  | nil => exact ⟨[], [], rfl, rfl, by simp, by simp⟩
  | cons e tl ih =>
    unfold multimap_insert
    by_cases h : c k e.1 = true
    · exact ⟨[], e :: tl, rfl, by simp [h], by simp, by simpa using h⟩
    · obtain ⟨pre, post, h1, h2, h3, h4⟩ := ih
      refine ⟨e :: pre, post, by simp [h1], by simp [h, h2], ?_, h4⟩
      intro x hx
      rcases List.mem_cons.1 hx with hx | hx
      · rw [hx]; simpa using h
      · exact h3 x hx

/-- C10 (no crossing): an order of positive quantity that meets an empty opposing book, or
an opposing book whose front entry has a price it does not accept, produces no trades,
leaves the opposing book unchanged and rests in full: its own book gains exactly the entry
(trader_id, price) with the order's whole quantity. -/
theorem no_cross_rests_in_full (m : Market) (order : Order) (hq : 0 < order.quantity)
    (h : m.opposing order.side = [] ∨ ∃ e tl, m.opposing order.side = e :: tl ∧
      price_acceptable order.side e.1 order.toInternalOrder = false) :
    (execute_order m order).1 = [] ∧
      (execute_order m order).2.opposing order.side = m.opposing order.side ∧
      ∃ pre post, m.same_side order.side = pre ++ post ∧
        (execute_order m order).2.same_side order.side =
          pre ++ (order.toInternalOrder, order.quantity) :: post := by
  obtain ⟨b, s⟩ := m
  have hq0 : order.quantity ≠ 0 := by omega
  by_cases hside : order.side = BUY_SIDE
  · simp only [Market.opposing, Market.same_side, price_acceptable, hside, if_true] at h ⊢
    obtain ⟨pre, post, h1, h2, -⟩ :=
      multimap_insert_split BuyComp order.toInternalOrder order.quantity b
    rcases h with h | ⟨e, tl, h, hacc⟩
    · subst h
      refine ⟨?_, ?_, pre, post, h1, ?_⟩ <;>
        simp [execute_order, raw_execute, _execute_order, hside, aggregate, h2]
    · subst h
      have hstop := scan_cons_stop BuyComp e.1 e.2 tl order (Or.inl (by simpa using hacc))
      refine ⟨?_, ?_, pre, post, h1, ?_⟩ <;>
        simp [execute_order, raw_execute, _execute_order, hside, aggregate, h2, hstop,
          Order.exhausted, hq0]
  · simp only [Market.opposing, Market.same_side, price_acceptable, hside, if_false] at h ⊢
    obtain ⟨pre, post, h1, h2, -⟩ :=
      multimap_insert_split SellComp order.toInternalOrder order.quantity s
    rcases h with h | ⟨e, tl, h, hacc⟩
    · subst h
      refine ⟨?_, ?_, pre, post, h1, ?_⟩ <;>
        simp [execute_order, raw_execute, _execute_order, hside, aggregate, h2]
    · subst h
      have hstop := scan_cons_stop SellComp e.1 e.2 tl order (Or.inl (by simpa using hacc))
      refine ⟨?_, ?_, pre, post, h1, ?_⟩ <;>
        simp [execute_order, raw_execute, _execute_order, hside, aggregate, h2, hstop,
          Order.exhausted, hq0]

/-- Witness of C10 on Example 3 (`Buy(Carol, 10, 99)` against an ask at 100 rests as
Carol:10@99) together with Example 1 (`Sell(Alice, 10, 100)` on empty books). -/
theorem no_cross_rests_in_full_witness :
    ((execute_order ⟨[], [(⟨"Alice", 100⟩, 6)]⟩ (Buy "Carol" 10 99)).1 = [] ∧
      (execute_order ⟨[], [(⟨"Alice", 100⟩, 6)]⟩ (Buy "Carol" 10 99)).2.opposing
          (Buy "Carol" 10 99).side =
        (⟨[], [(⟨"Alice", 100⟩, 6)]⟩ : Market).opposing (Buy "Carol" 10 99).side ∧
      ∃ pre post,
        (⟨[], [(⟨"Alice", 100⟩, 6)]⟩ : Market).same_side (Buy "Carol" 10 99).side = pre ++ post ∧
        (execute_order ⟨[], [(⟨"Alice", 100⟩, 6)]⟩ (Buy "Carol" 10 99)).2.same_side
            (Buy "Carol" 10 99).side =
          pre ++ ((Buy "Carol" 10 99).toInternalOrder, (Buy "Carol" 10 99).quantity) :: post) ∧
    execute_order ⟨[], [(⟨"Alice", 100⟩, 6)]⟩ (Buy "Carol" 10 99) =
      ([], ⟨[(⟨"Carol", 99⟩, 10)], [(⟨"Alice", 100⟩, 6)]⟩) ∧
    execute_order Market.empty (Sell "Alice" 10 100) = ([], ⟨[], [(⟨"Alice", 100⟩, 10)]⟩) :=
  ⟨no_cross_rests_in_full ⟨[], [(⟨"Alice", 100⟩, 6)]⟩ (Buy "Carol" 10 99) (by decide)
      (Or.inr ⟨(⟨"Alice", 100⟩, 6), [], rfl, by decide⟩),
    by decide, by decide⟩

/-! ## Properties of the aggregation -/

theorem aggregate_of_strict (r : Trades)
    (h : List.Pairwise (fun a b => TradeComp a b = true) r) : aggregate r = r := by
  unfold aggregate
  rw [sort_trades_of_sorted (strict_imp_sorted h)]
  simp only [merge_trades_of_strict r h]
  simp

theorem aggregate_of_sorted_short (r : Trades)
    (h : List.Pairwise (fun a b => TradeComp b a = false) r) (hlen : r.length ≤ 2) :
    aggregate r = r := by
  unfold aggregate
  rw [sort_trades_of_sorted h]
  have : ¬ r.length > 2 := by omega
  simp [this]

/-- C8 (idempotent aggregation): applying the post-processing of `execute_order` (sort by
`TradeComp`, then `merge_trades` when more than two fragments) to its own output changes
nothing. -/
theorem aggregate_idempotent (l : Trades) : aggregate (aggregate l) = aggregate l := by
  by_cases hl : l = []
  · subst hl; rfl
  · by_cases hlen : (sort_trades l).length > 2
    · have h1 : aggregate l = merge_trades (sort_trades l) := by
        unfold aggregate; simp [hl, hlen]
      rw [h1]
      exact aggregate_of_strict _ (merge_trades_strict _ (sort_trades_sorted l))
    · have h1 : aggregate l = sort_trades l := by
        unfold aggregate; simp [hl, hlen]
      rw [h1]
      exact aggregate_of_sorted_short _ (sort_trades_sorted l) (by omega)

/-! ## Conservation of quantity -/

/-- The `i`-th iteration of the loop: its aggressor fragment is fragment `2 * i`, its
quantity is the minimum of the quantity of the `i`-th opposing entry and of what is left
of the aggressor after the earlier iterations, and fragment `2 * i + 1` is the
counterparty fragment with the same quantity and price. -/
theorem scan_step_overlap (c : InternalOrder → InternalOrder → Bool) (l : InternalOrders)
    (a : Order) (i : Nat) (t : Order) (h : (scan c l a).trades[2 * i]? = some t) :
    ∃ e, l[i]? = some e ∧
      t.quantity = min e.2 (a.quantity - side_sum a.side ((scan c l a).trades.take (2 * i))) ∧
      t = ⟨⟨a.trader_id, e.1.price⟩, a.side, t.quantity⟩ ∧
      (scan c l a).trades[2 * i + 1]? =
        some ⟨⟨e.1.trader_id, e.1.price⟩, !a.side, t.quantity⟩ := by
  induction l generalizing a i with
  | nil => simp [scan_nil] at h
  | cons e tl ih =>
    obtain ⟨ro, rq⟩ := e
    rcases scan_cases c ro a with hstop | ⟨h1, h2⟩
    · simp [scan_cons_stop c ro rq tl a hstop] at h
    · rw [scan_cons_step c ro rq tl a h1 h2] at h ⊢
      cases i with
      | zero =>
        simp only [Nat.mul_zero, List.getElem?_cons_zero, Option.some.injEq] at h
        subst h
        exact ⟨(ro, rq), by simp, by simp [side_sum, qty_sum_nil], rfl, by simp⟩
      | succ j =>
        have e1 : 2 * (j + 1) = (2 * j + 1) + 1 := by omega
        have e2 : 2 * (j + 1) + 1 = ((2 * j + 1) + 1) + 1 := by omega
        rw [e1] at h
        simp only [List.getElem?_cons_succ] at h
        obtain ⟨e, he, hq, ht, hnext⟩ := ih _ j h
        refine ⟨e, by simpa using he, ?_, ht, ?_⟩
        · rw [hq, e1]
          simp only [List.take_succ_cons, side_sum, qty_sum_cons]
          simp only [side_sum] at hq ⊢
          have hb : ((!a.side) == a.side) = false := by cases a.side <;> rfl
          simp only [beq_self_eq_true, if_true, hb]
          simp only [Bool.false_eq_true, if_false, Nat.zero_add]
          rw [Nat.sub_add_eq]
        · rw [e2]
          simpa using hnext

theorem raw_execute_side_sum (m : Market) (order : Order) :
    (raw_execute m order).aggr_order.quantity ≤ order.quantity ∧
      side_sum order.side (raw_execute m order).trades =
        order.quantity - (raw_execute m order).aggr_order.quantity ∧
      side_sum (!order.side) (raw_execute m order).trades =
        order.quantity - (raw_execute m order).aggr_order.quantity := by
  obtain ⟨c, h1, h2⟩ := raw_execute_trades m order
  rw [h1, h2]
  exact ⟨(scan_aggr c _ order).2.2, (scan_side_sum c _ order).1, (scan_side_sum c _ order).2⟩

/-- No per-key sum of raw fragments exceeds the quantity of the incoming order. -/
theorem raw_execute_key_sum_le (m : Market) (order : Order) (k : String × Bool × Nat) :
    key_sum k (raw_execute m order).trades ≤ order.quantity := by
  refine le_trans (key_sum_le_side_sum k _) ?_
  obtain ⟨-, h1, h2⟩ := raw_execute_side_sum m order
  by_cases hk : k.2.1 = order.side
  · rw [hk, h1]; omega
  · have : k.2.1 = !order.side := by
      cases hs : order.side <;> cases hk1 : k.2.1 <;> simp_all
    rw [this, h2]; omega

/-- When no per-key sum wraps, the aggregation keeps every sum over a set of keys. -/
theorem aggregate_sum (p : Order → Bool) (hp : ∀ a b, trade_key a = trade_key b → p a = p b)
    (l : Trades) (hw : ∀ k, key_sum k l < UINT_RANGE) :
    qty_sum p (aggregate l) = qty_sum p l := by
  have hperm := sort_trades_perm l
  unfold aggregate
  split
  · simp only
    split
    · rw [merge_trades_sum p hp _ (sort_trades_sorted l), qty_sum_perm p hperm]
      intro k
      unfold key_sum
      rw [qty_sum_perm _ hperm]
      exact hw k
    · exact qty_sum_perm p hperm
  · rfl

/-- C5 (conservation of quantity): for an incoming order whose quantity is an
`unsigned int`, (1) the overlap of the `i`-th match step (the quantity of raw fragment
`2 * i`) is at most the minimum of the incoming quantity left before that step and of the
quantity of the `i`-th opposing entry, which that step is the first to touch; (2) in the
returned report the quantities on the incoming side sum to the original quantity minus the
unfilled remainder, and so do the quantities on the opposite side. -/
theorem conservation_of_quantity (m : Market) (order : Order)
    (hq : order.quantity < UINT_RANGE) :
    (∀ i t, (raw_execute m order).trades[2 * i]? = some t →
      ∃ e, (m.opposing order.side)[i]? = some e ∧
        t.quantity ≤ min
          (order.quantity - side_sum order.side ((raw_execute m order).trades.take (2 * i)))
          e.2) ∧
      (raw_execute m order).aggr_order.quantity ≤ order.quantity ∧
      side_sum order.side (execute_order m order).1 =
        order.quantity - (raw_execute m order).aggr_order.quantity ∧
      side_sum (!order.side) (execute_order m order).1 =
        order.quantity - (raw_execute m order).aggr_order.quantity := by
  have hw : ∀ k, key_sum k (raw_execute m order).trades < UINT_RANGE := fun k =>
    lt_of_le_of_lt (raw_execute_key_sum_le m order k) hq
  obtain ⟨h0, h1, h2⟩ := raw_execute_side_sum m order
  refine ⟨?_, h0, ?_, ?_⟩
  · intro i t ht
    obtain ⟨c, hc, -⟩ := raw_execute_trades m order
    rw [hc] at ht ⊢
    obtain ⟨e, he, hmin, -, -⟩ := scan_step_overlap c _ order i t ht
    exact ⟨e, he, by rw [hmin, min_comm]⟩
  · rw [← h1]
    exact aggregate_sum _ (side_pred_invariant _) _ hw
  · rw [← h2]
    exact aggregate_sum _ (side_pred_invariant _) _ hw

/-- Witness of C5 on Example 4: `Buy(Fay, 7, 100)` against Dan:5@100 and Eve:5@100 is
filled completely; the report holds 7 on the Buy side and 5 + 2 on the Sell side. -/
theorem conservation_of_quantity_witness :
    (Buy "Fay" 7 100).quantity < UINT_RANGE ∧
      (side_sum (Buy "Fay" 7 100).side
          (execute_order ⟨[], [(⟨"Dan", 100⟩, 5), (⟨"Eve", 100⟩, 5)]⟩ (Buy "Fay" 7 100)).1 =
        (Buy "Fay" 7 100).quantity -
          (raw_execute ⟨[], [(⟨"Dan", 100⟩, 5), (⟨"Eve", 100⟩, 5)]⟩
            (Buy "Fay" 7 100)).aggr_order.quantity) ∧
      (raw_execute ⟨[], [(⟨"Dan", 100⟩, 5), (⟨"Eve", 100⟩, 5)]⟩
        (Buy "Fay" 7 100)).aggr_order.quantity = 0 ∧
      (execute_order ⟨[], [(⟨"Dan", 100⟩, 5), (⟨"Eve", 100⟩, 5)]⟩ (Buy "Fay" 7 100)).1 =
        [Sell "Dan" 5 100, Sell "Eve" 2 100, Buy "Fay" 7 100] :=
  ⟨by decide,
    (conservation_of_quantity ⟨[], [(⟨"Dan", 100⟩, 5), (⟨"Eve", 100⟩, 5)]⟩ (Buy "Fay" 7 100)
      (by decide)).2.2.1,
    by decide, by decide⟩

/-! ## The merged report -/

theorem TradeComp_key_ne {a b : Order} (h : TradeComp a b = true) :
    trade_key a ≠ trade_key b := by
  intro hk
  have := ((TradeComp_both_false_iff a b).2 hk).1
  rw [h] at this
  cases this

theorem key_sum_eq_zero (k : String × Bool × Nat) (l : Trades)
    (h : ∀ x ∈ l, trade_key x ≠ k) : key_sum k l = 0 := by
  induction l with
  | nil => rfl
  | cons x tl ih =>
    unfold key_sum at ih ⊢
    rw [qty_sum_cons, ih (fun y hy => h y (List.mem_cons_of_mem _ hy))]
    have := h x (List.mem_cons_self _ _)
    simp [this]

theorem key_sum_of_strict (l : Trades) (h : List.Pairwise (fun a b => TradeComp a b = true) l)
    (t : Order) (ht : t ∈ l) : key_sum (trade_key t) l = t.quantity := by
  induction l with
  | nil => cases ht
  | cons x tl ih =>
    rw [List.pairwise_cons] at h
    unfold key_sum at ih ⊢
    rw [qty_sum_cons]
    rcases List.mem_cons.1 ht with rfl | htl
    · have h0 := key_sum_eq_zero (trade_key t) tl
        (fun y hy => (TradeComp_key_ne (h.1 y hy)).symm)
      unfold key_sum at h0
      rw [h0]
      simp
    · have hne : trade_key x ≠ trade_key t := TradeComp_key_ne (h.1 t htl)
      rw [ih h.2 htl]
      simp [hne]

theorem merge_trades_key_complete (l : Trades)
    (h : List.Pairwise (fun a b => TradeComp b a = false) l) :
    ∀ y ∈ l, ∃ x ∈ merge_trades l, trade_key x = trade_key y := by
  cases l with
  | nil => simp
  | cons t tl => exact merge_from_key_complete t tl h

theorem aggregate_key_complete (l : Trades) :
    ∀ y ∈ l, ∃ x ∈ aggregate l, trade_key x = trade_key y := by
  intro y hy
  have hy1 : y ∈ sort_trades l := (sort_trades_perm l).mem_iff.2 hy
  unfold aggregate
  split
  · simp only
    split
    · exact merge_trades_key_complete _ (sort_trades_sorted l) y hy1
    · exact ⟨y, hy1, rfl⟩
  · exact ⟨y, hy, rfl⟩

/-- The report of any call is strictly ascending, also when `merge_trades` is skipped. -/
theorem aggregate_raw_strict (m : Market) (order : Order) :
    List.Pairwise (fun a b => TradeComp a b = true) (aggregate (raw_execute m order).trades) := by
  obtain ⟨c, hc, -⟩ := raw_execute_trades m order
  rw [hc]
  rcases scan_trades_shape c (m.opposing order.side) order with h0 | ⟨t1, t2, e, l1, a1, hs, -,
    -, h2, h3, -⟩
  · rw [h0]; simp [aggregate]
  · by_cases hlen : (sort_trades (scan c (m.opposing order.side) order).trades).length > 2
    · have h1 : aggregate (scan c (m.opposing order.side) order).trades =
          merge_trades (sort_trades (scan c (m.opposing order.side) order).trades) := by
        have hne : (scan c (m.opposing order.side) order).trades ≠ [] := by rw [hs]; simp
        unfold aggregate; simp [hne, hlen]
      rw [h1]
      exact merge_trades_strict _ (sort_trades_sorted _)
    · rw [sort_trades_length, hs] at hlen
      have hnil : (scan c l1 a1).trades = [] := by
        cases hr : (scan c l1 a1).trades with
        | nil => rfl
        | cons x xs => rw [hr] at hlen; simp at hlen
      rw [hs, hnil]
      have hne : trade_key t1 ≠ trade_key t2 := by
        intro hk
        simp only [trade_key, Prod.mk.injEq] at hk
        rw [h2, h3] at hk
        cases hside : order.side <;> simp [hside] at hk
      have hagg : aggregate [t1, t2] = sort_trades [t1, t2] := by
        unfold aggregate; simp [sort_trades_length]
      rw [hagg, sort_trades_pair]
      by_cases hba : TradeComp t2 t1 = true
      · simp [hba]
      · simp only [hba, if_false, List.pairwise_cons, List.mem_singleton, forall_eq,
          List.not_mem_nil, false_implies, implies_true, List.Pairwise.nil, and_true]
        by_contra hab
        exact hne ((TradeComp_both_false_iff t1 t2).1 ⟨by simpa using hab, by simpa using hba⟩)

/-- C7 (merged report): for an incoming order whose quantity is an `unsigned int`, the
report of `execute_order` is strictly ascending in `TradeComp`, hence holds at most one
fragment per key `(trader_id, side, price)`; the quantity of each returned fragment is the
exact sum of the quantities of the raw fragments with its key; and every key of a raw
fragment occurs in the report.  Nothing is assumed on the number of raw fragments. -/
theorem merged_report (m : Market) (order : Order) (hq : order.quantity < UINT_RANGE) :
    List.Pairwise (fun a b => TradeComp a b = true) (execute_order m order).1 ∧
      ((execute_order m order).1.map trade_key).Nodup ∧
      (∀ t ∈ (execute_order m order).1,
        t.quantity = key_sum (trade_key t) (raw_execute m order).trades) ∧
      (∀ t ∈ (raw_execute m order).trades,
        ∃ t1 ∈ (execute_order m order).1, trade_key t1 = trade_key t) := by
  have hstrict := aggregate_raw_strict m order
  refine ⟨hstrict, ?_, ?_, aggregate_key_complete _⟩
  · unfold List.Nodup
    rw [List.pairwise_map]
    exact hstrict.imp (fun h => TradeComp_key_ne h)
  · intro t ht
    have hw : ∀ k, key_sum k (raw_execute m order).trades < UINT_RANGE := fun k =>
      lt_of_le_of_lt (raw_execute_key_sum_le m order k) hq
    rw [← key_sum_of_strict _ hstrict t ht]
    exact aggregate_sum _ (key_pred_invariant _) _ hw

/-- Witness of C7 on Example 4: Fay's two fills at the same side and price are reported as
one fragment of quantity 5 + 2. -/
theorem merged_report_witness :
    (Buy "Fay" 7 100).quantity < UINT_RANGE ∧
      List.Pairwise (fun a b => TradeComp a b = true)
        (execute_order ⟨[], [(⟨"Dan", 100⟩, 5), (⟨"Eve", 100⟩, 5)]⟩ (Buy "Fay" 7 100)).1 ∧
      (raw_execute ⟨[], [(⟨"Dan", 100⟩, 5), (⟨"Eve", 100⟩, 5)]⟩ (Buy "Fay" 7 100)).trades =
        [Buy "Fay" 5 100, Sell "Dan" 5 100, Buy "Fay" 2 100, Sell "Eve" 2 100] :=
  ⟨by decide,
    (merged_report ⟨[], [(⟨"Dan", 100⟩, 5), (⟨"Eve", 100⟩, 5)]⟩ (Buy "Fay" 7 100)
      (by decide)).1,
    by decide⟩

/-! ## Erasing the stamps -/

theorem stamped_insert_erase (c : InternalOrder → InternalOrder → Bool) (k : InternalOrder)
    (q n : Nat) (l : StampedOrders) :
    (stamped_insert c k q n l).map Prod.fst = multimap_insert c k q (l.map Prod.fst) := by
  induction l with
  | nil => rfl
  | cons e tl ih =>
    unfold stamped_insert
    simp only [List.map_cons, multimap_insert]
    by_cases h : c k e.1.1 = true <;> simp [h, ih]

theorem stamped_scan_erase (c : InternalOrder → InternalOrder → Bool) (l : StampedOrders)
    (a : Order) : (stamped_scan c l a).map Prod.fst = (scan c (l.map Prod.fst) a).opposing := by
  induction l generalizing a with
  | nil => rfl
  | cons e tl ih =>
    obtain ⟨⟨ro, rq⟩, n⟩ := e
    simp only [List.map_cons]
    rcases scan_cases c ro a with h | ⟨h1, h2⟩
    · rw [scan_cons_stop c ro rq _ a h]
      unfold stamped_scan
      rcases h with h | h <;> simp [h, Order.exhausted]
    · rw [scan_cons_step c ro rq _ a h1 h2]
      unfold stamped_scan
      simp [h1, h2, Order.exhausted, ih]

theorem _execute_order_of_ne (c : InternalOrder → InternalOrder → Bool)
    (opp same : InternalOrders) (a : Order) (h : opp ≠ []) :
    _execute_order c opp same a =
      ⟨(scan c opp a).trades, (scan c opp a).opposing.drop (scan c opp a).exhausted_rest_orders,
        if (scan c opp a).aggr.quantity = 0 then same
        else multimap_insert c (scan c opp a).aggr.toInternalOrder (scan c opp a).aggr.quantity
          same,
        (scan c opp a).aggr⟩ := by
  unfold _execute_order
  have h1 : opp.isEmpty = false := by cases opp <;> simp_all
  simp only [h1, Bool.false_eq_true, if_false, Order.exhausted]
  by_cases hk : (scan c opp a).exhausted_rest_orders = 0 <;>
    by_cases hq : (scan c opp a).aggr.quantity = 0 <;> simp [hk, hq]

theorem _execute_order_nil (c : InternalOrder → InternalOrder → Bool)
    (same : InternalOrders) (a : Order) :
    _execute_order c [] same a =
      ⟨[], [], multimap_insert c a.toInternalOrder a.quantity same, a⟩ := by
  simp [_execute_order]

theorem stamped_execute_side_of_ne (c : InternalOrder → InternalOrder → Bool)
    (opp same : StampedOrders) (a : Order) (n : Nat) (h : opp ≠ []) :
    stamped_execute_side c opp same a n =
      ((stamped_scan c opp a).drop (scan c (opp.map Prod.fst) a).exhausted_rest_orders,
        if (scan c (opp.map Prod.fst) a).aggr.quantity = 0 then same
        else stamped_insert c (scan c (opp.map Prod.fst) a).aggr.toInternalOrder
          (scan c (opp.map Prod.fst) a).aggr.quantity n same) := by
  unfold stamped_execute_side
  have h1 : opp.isEmpty = false := by cases opp <;> simp_all
  simp only [h1, Bool.false_eq_true, if_false, Order.exhausted]
  by_cases hk : (scan c (opp.map Prod.fst) a).exhausted_rest_orders = 0 <;>
    by_cases hq : (scan c (opp.map Prod.fst) a).aggr.quantity = 0 <;> simp [hk, hq]

theorem stamped_execute_side_nil (c : InternalOrder → InternalOrder → Bool)
    (same : StampedOrders) (a : Order) (n : Nat) :
    stamped_execute_side c [] same a n =
      ([], stamped_insert c a.toInternalOrder a.quantity n same) := by
  simp [stamped_execute_side]

theorem stamped_execute_side_erase (c : InternalOrder → InternalOrder → Bool)
    (opp same : StampedOrders) (a : Order) (n : Nat) :
    (stamped_execute_side c opp same a n).1.map Prod.fst =
        (_execute_order c (opp.map Prod.fst) (same.map Prod.fst) a).opposing_orders ∧
      (stamped_execute_side c opp same a n).2.map Prod.fst =
        (_execute_order c (opp.map Prod.fst) (same.map Prod.fst) a).same_side_orders := by
  by_cases h : opp = []
  · subst h
    simp [stamped_execute_side_nil, _execute_order_nil, stamped_insert_erase]
  · have h1 : opp.map Prod.fst ≠ [] := by simpa using h
    rw [stamped_execute_side_of_ne c opp same a n h, _execute_order_of_ne c _ _ a h1]
    constructor
    · simp only [List.map_drop, stamped_scan_erase]
    · split <;> simp [stamped_insert_erase]

/-- Erasing the stamps commutes with a call. -/
theorem stamped_execute_erase (sm : StampedMarket) (order : Order) :
    (stamped_execute sm order).erase = (execute_order sm.erase order).2 := by
  unfold stamped_execute execute_order raw_execute StampedMarket.erase
  by_cases hside : order.side = BUY_SIDE
  · simp only [hside, if_true]
    have := stamped_execute_side_erase BuyComp sm.sell_orders sm.buy_orders order sm.clock
    simp [this.1, this.2]
  · simp only [hside, if_false]
    have := stamped_execute_side_erase SellComp sm.buy_orders sm.sell_orders order sm.clock
    simp [this.1, this.2]

/-- Erasing the stamps commutes with a sequence of calls. -/
theorem stamped_run_erase (sm : StampedMarket) (os : List Order) :
    (stamped_run sm os).erase = run sm.erase os := by
  induction os generalizing sm with
  | nil => rfl
  | cons o os ih =>
    simp only [stamped_run, run]
    rw [ih, stamped_execute_erase]

/-! ## The ordering invariant on the stamped market -/

theorem BuyComp_ok : comp_ok BuyComp := by
  constructor
  · intro a b h
    simp only [BuyComp, gt_iff_lt, decide_eq_true_eq, decide_eq_false_iff_not] at h ⊢
    omega
  · intro k h e h1 h2
    simp only [BuyComp, gt_iff_lt, decide_eq_true_eq, decide_eq_false_iff_not] at h1 h2 ⊢
    omega

theorem SellComp_ok : comp_ok SellComp := by
  constructor
  · intro a b h
    simp only [SellComp, decide_eq_true_eq, decide_eq_false_iff_not] at h ⊢
    omega
  · intro k h e h1 h2
    simp only [SellComp, decide_eq_true_eq, decide_eq_false_iff_not] at h1 h2 ⊢
    omega

/-- The loop changes quantities only: keys and stamps stay in place. -/
theorem stamped_scan_keys (c : InternalOrder → InternalOrder → Bool) (l : StampedOrders)
    (a : Order) :
    (stamped_scan c l a).map (fun e => (e.1.1, e.2)) = l.map (fun e => (e.1.1, e.2)) := by
  induction l generalizing a with
  | nil => rfl
  | cons e tl ih =>
    obtain ⟨⟨ro, rq⟩, n⟩ := e
    unfold stamped_scan
    split
    · rfl
    · simp [ih]

theorem has_priority_pairwise_map (c : InternalOrder → InternalOrder → Bool)
    (l : StampedOrders) :
    List.Pairwise (has_priority c) l ↔
      List.Pairwise (fun x y : InternalOrder × Nat =>
        c y.1 x.1 = false ∧ (c x.1 y.1 = true ∨ x.2 < y.2) ∧ x.2 ≠ y.2)
        (l.map (fun e => (e.1.1, e.2))) := by
  rw [List.pairwise_map]
  rfl

theorem stamped_scan_drop_ordered (c : InternalOrder → InternalOrder → Bool)
    (l : StampedOrders) (a : Order) (k : Nat) (h : List.Pairwise (has_priority c) l) :
    List.Pairwise (has_priority c) ((stamped_scan c l a).drop k) := by
  rw [has_priority_pairwise_map] at h ⊢
  rw [List.map_drop, stamped_scan_keys]
  exact h.sublist (List.drop_sublist _ _)

theorem stamped_scan_drop_stamps (c : InternalOrder → InternalOrder → Bool)
    (l : StampedOrders) (a : Order) (k : Nat) :
    ∀ e ∈ (stamped_scan c l a).drop k, ∃ e1 ∈ l, e1.1.1 = e.1.1 ∧ e1.2 = e.2 := by
  intro e he
  have h1 : (e.1.1, e.2) ∈ ((stamped_scan c l a).drop k).map (fun e => (e.1.1, e.2)) :=
    List.mem_map_of_mem _ he
  rw [List.map_drop, stamped_scan_keys] at h1
  have h2 := List.mem_of_mem_drop h1
  obtain ⟨e1, he1, heq⟩ := List.mem_map.1 h2
  simp only [Prod.mk.injEq] at heq
  exact ⟨e1, he1, heq.1, heq.2⟩

theorem stamped_insert_mem (c : InternalOrder → InternalOrder → Bool) (k : InternalOrder)
    (q n : Nat) (l : StampedOrders) :
    ∀ e, e ∈ stamped_insert c k q n l ↔ e = ((k, q), n) ∨ e ∈ l := by
  induction l with
  | nil => intro e; simp [stamped_insert]
  | cons x tl ih =>
    intro e
    unfold stamped_insert
    split
    · simp
    · simp only [List.mem_cons, ih]
      tauto

theorem stamped_insert_ordered (c : InternalOrder → InternalOrder → Bool) (hc : comp_ok c)
    (k : InternalOrder) (q n : Nat) (l : StampedOrders)
    (h : List.Pairwise (has_priority c) l) (hn : ∀ e ∈ l, e.2 < n) :
    List.Pairwise (has_priority c) (stamped_insert c k q n l) := by
  induction l with
  | nil => simp [stamped_insert]
  | cons x tl ih =>
    rw [List.pairwise_cons] at h
    have hx := hn x (List.mem_cons_self _ _)
    unfold stamped_insert
    split
    · rename_i hkx
      rw [List.pairwise_cons]
      refine ⟨?_, List.pairwise_cons.2 h⟩
      intro e he
      have hke : c k e.1.1 = true := by
        rcases List.mem_cons.1 he with rfl | he1
        · exact hkx
        · exact hc.2 k x.1.1 e.1.1 hkx (h.1 e he1).1
      have hen := hn e he
      exact ⟨hc.1 _ _ hke, Or.inl hke, by simp only; omega⟩
    · rename_i hkx
      have hkx : c k x.1.1 = false := by simpa using hkx
      rw [List.pairwise_cons]
      refine ⟨?_, ih h.2 (fun e he => hn e (List.mem_cons_of_mem _ he))⟩
      intro e he
      rcases (stamped_insert_mem c k q n tl e).1 he with rfl | he1
      · exact ⟨hkx, Or.inr hx, by simp only; omega⟩
      · exact h.1 e he1

theorem stamped_execute_side_ordered (c : InternalOrder → InternalOrder → Bool)
    (hc : comp_ok c) (copp : InternalOrder → InternalOrder → Bool)
    (opp same : StampedOrders) (a : Order) (n : Nat)
    (hopp : List.Pairwise (has_priority copp) opp) (hsame : List.Pairwise (has_priority c) same)
    (hn1 : ∀ e ∈ opp, e.2 < n) (hn2 : ∀ e ∈ same, e.2 < n) :
    List.Pairwise (has_priority copp) (stamped_execute_side c opp same a n).1 ∧
      List.Pairwise (has_priority c) (stamped_execute_side c opp same a n).2 ∧
      (∀ e ∈ (stamped_execute_side c opp same a n).1, e.2 < n + 1) ∧
      (∀ e ∈ (stamped_execute_side c opp same a n).2, e.2 < n + 1) := by
  have hins : ∀ (k : InternalOrder) (q : Nat), ∀ e ∈ stamped_insert c k q n same, e.2 < n + 1 := by
    intro k q e he
    rcases (stamped_insert_mem c k q n same e).1 he with rfl | he1
    · simp
    · exact Nat.lt_succ_of_lt (hn2 e he1)
  by_cases h : opp = []
  · subst h
    rw [stamped_execute_side_nil]
    exact ⟨List.Pairwise.nil, stamped_insert_ordered c hc _ _ n same hsame hn2, by simp,
      hins _ _⟩
  · rw [stamped_execute_side_of_ne c opp same a n h]
    refine ⟨?_, ?_, ?_, ?_⟩
    · rw [has_priority_pairwise_map] at hopp ⊢
      rw [List.map_drop, stamped_scan_keys]
      exact hopp.sublist (List.drop_sublist _ _)
    · simp only
      split
      · exact hsame
      · exact stamped_insert_ordered c hc _ _ n same hsame hn2
    · intro e he
      obtain ⟨e1, he1, -, h2⟩ := stamped_scan_drop_stamps c opp a _ e he
      have := hn1 e1 he1
      omega
    · simp only
      split
      · exact fun e he => Nat.lt_succ_of_lt (hn2 e he)
      · exact hins _ _

theorem stamped_execute_ordered (sm : StampedMarket) (order : Order) (h : sm.ordered) :
    (stamped_execute sm order).ordered := by
  obtain ⟨h1, h2, h3, h4⟩ := h
  unfold stamped_execute
  by_cases hside : order.side = BUY_SIDE
  · simp only [hside, if_true]
    obtain ⟨a1, a2, a3, a4⟩ := stamped_execute_side_ordered BuyComp BuyComp_ok SellComp
      sm.sell_orders sm.buy_orders order sm.clock h2 h1 h4 h3
    exact ⟨a2, a1, a4, a3⟩
  · simp only [hside, if_false]
    exact stamped_execute_side_ordered SellComp SellComp_ok BuyComp
      sm.buy_orders sm.sell_orders order sm.clock h1 h2 h3 h4

theorem stamped_run_ordered (sm : StampedMarket) (os : List Order) (h : sm.ordered) :
    (stamped_run sm os).ordered := by
  induction os generalizing sm with
  | nil => exact h
  | cons o os ih => exact ih _ (stamped_execute_ordered sm o h)

theorem stamped_empty_ordered : StampedMarket.empty.ordered := by
  simp [StampedMarket.ordered, StampedMarket.empty]

/-! ## The ordering invariant on the plain market -/

theorem stamped_empty_erase : StampedMarket.empty.erase = Market.empty := rfl

theorem ordered_erase (c : InternalOrder → InternalOrder → Bool) (l : StampedOrders)
    (h : List.Pairwise (has_priority c) l) :
    List.Pairwise (fun a b : InternalOrder × Nat => c b.1 a.1 = false) (l.map Prod.fst) := by
  rw [List.pairwise_map]
  exact h.imp (fun hab => hab.1)

/-- In every reachable market both books are ordered by their comparator. -/
theorem run_sorted (os : List Order) :
    List.Pairwise (fun a b : InternalOrder × Nat => BuyComp b.1 a.1 = false)
        (run Market.empty os).buy_orders ∧
      List.Pairwise (fun a b : InternalOrder × Nat => SellComp b.1 a.1 = false)
        (run Market.empty os).sell_orders := by
  have h := stamped_run_ordered StampedMarket.empty os stamped_empty_ordered
  have he := stamped_run_erase StampedMarket.empty os
  rw [stamped_empty_erase] at he
  rw [← he]
  exact ⟨ordered_erase _ _ h.1, ordered_erase _ _ h.2.1⟩

theorem multimap_insert_sorted_split (c : InternalOrder → InternalOrder → Bool)
    (hc : comp_ok c) (k : InternalOrder) (q : Nat) (l : InternalOrders)
    (hl : List.Pairwise (fun a b : InternalOrder × Nat => c b.1 a.1 = false) l) :
    ∃ pre post, l = pre ++ post ∧ multimap_insert c k q l = pre ++ (k, q) :: post ∧
      (∀ e ∈ pre, c k e.1 = false) ∧ (∀ e ∈ post, c k e.1 = true) := by
  obtain ⟨pre, post, h1, h2, h3, h4⟩ := multimap_insert_split c k q l
  refine ⟨pre, post, h1, h2, h3, ?_⟩
  cases post with
  | nil => simp
  | cons x tl =>
    have hx : c k x.1 = true := h4 x (by simp)
    rw [h1, List.pairwise_append] at hl
    have hpost := List.pairwise_cons.1 hl.2.1
    intro e he
    rcases List.mem_cons.1 he with rfl | he1
    · exact hx
    · exact hc.2 k x.1 e.1 hx (hpost.1 e he1)

/-- Where the remainder of an order is inserted by `_execute_order` when it comes to rest,
in a same-side book ordered by `c`. -/
theorem _execute_order_rest_position (c : InternalOrder → InternalOrder → Bool)
    (hc : comp_ok c) (opp same : InternalOrders) (a : Order)
    (hl : List.Pairwise (fun x y : InternalOrder × Nat => c y.1 x.1 = false) same)
    (hrest : opp = [] ∨ (_execute_order c opp same a).aggr_order.quantity ≠ 0) :
    ∃ pre post, same = pre ++ post ∧
      (_execute_order c opp same a).same_side_orders =
        pre ++ (a.toInternalOrder, (_execute_order c opp same a).aggr_order.quantity) :: post ∧
      (∀ e ∈ pre, c a.toInternalOrder e.1 = false) ∧
      (∀ e ∈ post, c a.toInternalOrder e.1 = true) := by
  by_cases h : opp = []
  · subst h
    rw [_execute_order_nil]
    exact multimap_insert_sorted_split c hc _ _ same hl
  · have hq : (_execute_order c opp same a).aggr_order.quantity ≠ 0 := by
      rcases hrest with h0 | h0
      · exact absurd h0 h
      · exact h0
    rw [_execute_order_of_ne c opp same a h] at hq ⊢
    simp only at hq ⊢
    rw [if_neg hq, (scan_aggr c opp a).1]
    exact multimap_insert_sorted_split c hc _ _ same hl

/-- C9 (book ordering invariant): in every market reached from empty books by
`execute_order` calls, (1) the bid book has non-increasing prices and the ask book
non-decreasing prices from front to back; (2) when the next order comes to rest (the
opposing book is empty, or a remainder is left), its entry, holding the remainder, is
inserted after every entry of its book whose price is at least as good (so after every
entry of equal price) and before every entry with a strictly worse price, all other entries
keeping their order; (3) replaying the calls with arrival stamps, which erase to the same
market, entries of equal price stand in each book in order of arrival. -/
theorem book_ordering_invariant (os : List Order) :
    List.Pairwise (fun a b : InternalOrder × Nat => a.1.price ≥ b.1.price)
        (run Market.empty os).buy_orders ∧
      List.Pairwise (fun a b : InternalOrder × Nat => a.1.price ≤ b.1.price)
        (run Market.empty os).sell_orders ∧
      (∀ order : Order,
        ((run Market.empty os).opposing order.side = [] ∨
          (raw_execute (run Market.empty os) order).aggr_order.quantity ≠ 0) →
        ∃ pre post, (run Market.empty os).same_side order.side = pre ++ post ∧
          (execute_order (run Market.empty os) order).2.same_side order.side =
            pre ++ (order.toInternalOrder,
              (raw_execute (run Market.empty os) order).aggr_order.quantity) :: post ∧
          (∀ e ∈ pre, if order.side = BUY_SIDE then e.1.price ≥ order.price
            else e.1.price ≤ order.price) ∧
          (∀ e ∈ post, if order.side = BUY_SIDE then e.1.price < order.price
            else e.1.price > order.price)) ∧
      ((stamped_run StampedMarket.empty os).erase = run Market.empty os ∧
        List.Pairwise (fun a b : (InternalOrder × Nat) × Nat =>
            a.1.1.price > b.1.1.price ∨ (a.1.1.price = b.1.1.price ∧ a.2 < b.2))
          (stamped_run StampedMarket.empty os).buy_orders ∧
        List.Pairwise (fun a b : (InternalOrder × Nat) × Nat =>
            a.1.1.price < b.1.1.price ∨ (a.1.1.price = b.1.1.price ∧ a.2 < b.2))
          (stamped_run StampedMarket.empty os).sell_orders) := by
  obtain ⟨hb, hs⟩ := run_sorted os
  have hord := stamped_run_ordered StampedMarket.empty os stamped_empty_ordered
  refine ⟨?_, ?_, ?_, ?_, ?_, ?_⟩
  · refine hb.imp ?_
    intro a b h
    simp only [BuyComp, gt_iff_lt, decide_eq_false_iff_not] at h
    omega
  · refine hs.imp ?_
    intro a b h
    simp only [SellComp, decide_eq_false_iff_not] at h
    omega
  · intro order hrest
    by_cases hside : order.side = BUY_SIDE
    · simp only [Market.opposing, Market.same_side, hside, if_true, execute_order] at hrest ⊢
      rw [raw_execute_buy _ order hside] at hrest ⊢
      obtain ⟨pre, post, h1, h2, h3, h4⟩ := _execute_order_rest_position BuyComp BuyComp_ok
        (run Market.empty os).sell_orders (run Market.empty os).buy_orders order hb hrest
      refine ⟨pre, post, h1, h2, ?_, ?_⟩
      · intro e he
        have := h3 e he
        simp only [BuyComp, gt_iff_lt, decide_eq_false_iff_not] at this
        omega
      · intro e he
        have := h4 e he
        simp only [BuyComp, gt_iff_lt, decide_eq_true_eq] at this
        omega
    · simp only [Market.opposing, Market.same_side, hside, if_false, execute_order] at hrest ⊢
      rw [raw_execute_sell _ order (by simpa using hside)] at hrest ⊢
      obtain ⟨pre, post, h1, h2, h3, h4⟩ := _execute_order_rest_position SellComp SellComp_ok
        (run Market.empty os).buy_orders (run Market.empty os).sell_orders order hs hrest
      refine ⟨pre, post, h1, h2, ?_, ?_⟩
      · intro e he
        have := h3 e he
        simp only [SellComp, decide_eq_false_iff_not] at this
        omega
      · intro e he
        have := h4 e he
        simp only [SellComp, decide_eq_true_eq] at this
        omega
  · exact stamped_run_erase StampedMarket.empty os
  · refine hord.1.imp ?_
    intro a b h
    obtain ⟨h1, h2, -⟩ := h
    simp only [BuyComp, gt_iff_lt, decide_eq_false_iff_not, decide_eq_true_eq] at h1 h2
    omega
  · refine hord.2.1.imp ?_
    intro a b h
    obtain ⟨h1, h2, -⟩ := h
    simp only [SellComp, decide_eq_false_iff_not, decide_eq_true_eq] at h1 h2
    omega

/-- Witness of C9: after `Buy(Ann, 5, 10)` and `Buy(Ben, 5, 12)`, the order
`Buy(Cat, 3, 10)` rests behind Ann at the same price: the bid book becomes
Ben:5@12, Ann:5@10, Cat:3@10. -/
theorem book_ordering_invariant_witness :
    (∃ pre post,
      (run Market.empty [Buy "Ann" 5 10, Buy "Ben" 5 12]).same_side (Buy "Cat" 3 10).side =
        pre ++ post ∧
      (execute_order (run Market.empty [Buy "Ann" 5 10, Buy "Ben" 5 12])
          (Buy "Cat" 3 10)).2.same_side (Buy "Cat" 3 10).side =
        pre ++ ((Buy "Cat" 3 10).toInternalOrder,
          (raw_execute (run Market.empty [Buy "Ann" 5 10, Buy "Ben" 5 12])
            (Buy "Cat" 3 10)).aggr_order.quantity) :: post ∧
      (∀ e ∈ pre, if (Buy "Cat" 3 10).side = BUY_SIDE then e.1.price ≥ (Buy "Cat" 3 10).price
        else e.1.price ≤ (Buy "Cat" 3 10).price) ∧
      (∀ e ∈ post, if (Buy "Cat" 3 10).side = BUY_SIDE then e.1.price < (Buy "Cat" 3 10).price
        else e.1.price > (Buy "Cat" 3 10).price)) ∧
    (execute_order (run Market.empty [Buy "Ann" 5 10, Buy "Ben" 5 12]) (Buy "Cat" 3 10)).2 =
      ⟨[(⟨"Ben", 12⟩, 5), (⟨"Ann", 10⟩, 5), (⟨"Cat", 10⟩, 3)], []⟩ :=
  ⟨(book_ordering_invariant [Buy "Ann" 5 10, Buy "Ben" 5 12]).2.2.1 (Buy "Cat" 3 10)
      (Or.inl rfl),
    by decide⟩

/-! ## Price-time priority -/

theorem scan_exhausted (c : InternalOrder → InternalOrder → Bool) (l : InternalOrders)
    (a : Order) (h : a.quantity = 0) : scan c l a = ⟨l, a, 0, []⟩ := by
  cases l with
  | nil => rfl
  | cons e tl => exact scan_cons_stop c e.1 e.2 tl a (Or.inr h)

theorem stamped_scan_exhausted (c : InternalOrder → InternalOrder → Bool) (l : StampedOrders)
    (a : Order) (h : a.quantity = 0) : stamped_scan c l a = l := by
  cases l with
  | nil => rfl
  | cons e tl =>
    obtain ⟨⟨ro, rq⟩, n⟩ := e
    unfold stamped_scan
    simp [h, Order.exhausted]

theorem stamped_scan_cons_stop (c : InternalOrder → InternalOrder → Bool) (ro : InternalOrder)
    (rq n : Nat) (tl : StampedOrders) (a : Order)
    (h : c ro a.toInternalOrder = true ∨ a.quantity = 0) :
    stamped_scan c (((ro, rq), n) :: tl) a = ((ro, rq), n) :: tl := by
  unfold stamped_scan
  rcases h with h | h <;> simp [h, Order.exhausted]

theorem stamped_scan_cons_step (c : InternalOrder → InternalOrder → Bool) (ro : InternalOrder)
    (rq n : Nat) (tl : StampedOrders) (a : Order) (h1 : c ro a.toInternalOrder = false)
    (h2 : a.quantity ≠ 0) :
    stamped_scan c (((ro, rq), n) :: tl) a =
      ((ro, rq - min rq a.quantity), n) ::
        stamped_scan c tl { a with quantity := a.quantity - min rq a.quantity } := by
  conv_lhs => unfold stamped_scan
  simp [h1, h2, Order.exhausted]

/-- Shape of the opposing book after the loop and the prefix erase: the first
`exhausted_rest_orders` entries were brought to quantity 0 by the loop, and what is left
after erasing them is the rest of the book, untouched except that its front entry may have
a smaller, still positive, quantity. -/
theorem stamped_scan_shape (c : InternalOrder → InternalOrder → Bool) (l : StampedOrders)
    (a : Order) :
    (scan c (l.map Prod.fst) a).exhausted_rest_orders ≤ l.length ∧
      (∀ e ∈ l.take (scan c (l.map Prod.fst) a).exhausted_rest_orders,
        ((e.1.1, 0), e.2) ∈ stamped_scan c l a) ∧
      ((stamped_scan c l a).drop (scan c (l.map Prod.fst) a).exhausted_rest_orders =
          l.drop (scan c (l.map Prod.fst) a).exhausted_rest_orders ∨
        ∃ e tl q, l.drop (scan c (l.map Prod.fst) a).exhausted_rest_orders = e :: tl ∧
          q < e.1.2 ∧ 0 < q ∧
          (stamped_scan c l a).drop (scan c (l.map Prod.fst) a).exhausted_rest_orders =
            ((e.1.1, q), e.2) :: tl) := by
  induction l generalizing a with
  | nil => simp [scan_nil, stamped_scan]
  | cons x tl ih =>
    obtain ⟨⟨ro, rq⟩, n⟩ := x
    simp only [List.map_cons]
    rcases scan_cases c ro a with h | ⟨h1, h2⟩
    · rw [scan_cons_stop c ro rq _ a h, stamped_scan_cons_stop c ro rq n tl a h]
      simp
    · rw [scan_cons_step c ro rq _ a h1 h2, stamped_scan_cons_step c ro rq n tl a h1 h2]
      by_cases hz : rq - min rq a.quantity = 0
      · obtain ⟨i1, i2, i3⟩ := ih { a with quantity := a.quantity - min rq a.quantity }
        simp only [hz, if_true]
        refine ⟨by simp only [List.length_cons]; omega, ?_, ?_⟩
        · intro e he
          rw [Nat.add_comm, List.take_succ_cons] at he
          rcases List.mem_cons.1 he with rfl | he1
          · simp
          · exact List.mem_cons_of_mem _ (i2 e he1)
        · rw [Nat.add_comm]
          simpa only [List.drop_succ_cons] using i3
      · have hlt : a.quantity < rq := by
          rcases Nat.le_total rq a.quantity with hle | hle
          · rw [Nat.min_eq_left hle] at hz; omega
          · rcases Nat.lt_or_ge a.quantity rq with h | h
            · exact h
            · rw [Nat.min_eq_left h] at hz; omega
        have hmin : min rq a.quantity = a.quantity := Nat.min_eq_right (Nat.le_of_lt hlt)
        have h0 : ({ a with quantity := a.quantity - min rq a.quantity } : Order).quantity = 0 := by
          simp only [hmin]; omega
        rw [scan_exhausted c _ _ h0, stamped_scan_exhausted c _ _ h0]
        simp only [hz, if_false, Nat.add_zero, List.take_zero, List.drop_zero]
        refine ⟨Nat.zero_le _, by simp, Or.inr ⟨((ro, rq), n), tl, rq - min rq a.quantity, rfl,
          ?_, ?_, rfl⟩⟩
        · simp only [hmin]; omega
        · omega

theorem stamped_quantity_of_mem (l : StampedOrders)
    (hl : List.Pairwise (fun a b : (InternalOrder × Nat) × Nat => a.2 ≠ b.2) l)
    (B : (InternalOrder × Nat) × Nat) (hB : B ∈ l) : stamped_quantity l B.2 = B.1.2 := by
  induction l with
  | nil => cases hB
  | cons x tl ih =>
    rw [List.pairwise_cons] at hl
    unfold stamped_quantity at ih ⊢
    rcases List.mem_cons.1 hB with rfl | hB1
    · simp [List.find?_cons]
    · have hne : x.2 ≠ B.2 := hl.1 B hB1
      have hb : (x.2 == B.2) = false := by simpa using hne
      rw [List.find?_cons, hb]
      exact ih hl.2 hB1

theorem stamped_quantity_of_absent (l : StampedOrders) (n : Nat) (h : ∀ e ∈ l, e.2 ≠ n) :
    stamped_quantity l n = 0 := by
  unfold stamped_quantity
  have : l.find? (fun e => e.2 == n) = none := by
    rw [List.find?_eq_none]
    intro e he
    simpa using h e he
  rw [this]

/-- Core of price-time priority on one opposing book listed by priority: if the call
changes the resting quantity of `B`, every `A` with priority over `B` was brought to 0 by
the loop and erased. -/
theorem priority_core (c copp : InternalOrder → InternalOrder → Bool) (hc : comp_ok copp)
    (l : StampedOrders) (a : Order) (hl : List.Pairwise (has_priority copp) l)
    (A B : (InternalOrder × Nat) × Nat) (hA : A ∈ l) (hB : B ∈ l)
    (hred : stamped_quantity
      ((stamped_scan c l a).drop (scan c (l.map Prod.fst) a).exhausted_rest_orders) B.2 < B.1.2)
    (hprio : copp A.1.1 B.1.1 = true ∨
      (copp A.1.1 B.1.1 = false ∧ copp B.1.1 A.1.1 = false ∧ A.2 < B.2)) :
    ((A.1.1, 0), A.2) ∈ stamped_scan c l a ∧
      ∀ e ∈ (stamped_scan c l a).drop (scan c (l.map Prod.fst) a).exhausted_rest_orders,
        e.2 ≠ A.2 := by
  obtain ⟨-, hzero, hshape⟩ := stamped_scan_shape c l a
  generalize (scan c (l.map Prod.fst) a).exhausted_rest_orders = k at *
  have hsplit : l.take k ++ l.drop k = l := List.take_append_drop k l
  rw [← hsplit, List.pairwise_append] at hl
  obtain ⟨-, hdrop, hcross⟩ := hl
  -- `B` has no priority over `A`
  have hnot : ¬ has_priority copp B A := by
    rintro ⟨h1, h2, -⟩
    rcases hprio with hp | ⟨hp1, hp2, hp3⟩
    · rw [hp] at h1; cases h1
    · rcases h2 with h2 | h2
      · rw [h2] at hp2; cases hp2
      · omega
  have hne : A ≠ B := by
    rintro rfl
    rcases hprio with hp | ⟨-, -, hp3⟩
    · have := hc.1 _ _ hp
      rw [hp] at this; cases this
    · omega
  have hstamps : List.Pairwise (fun x y : (InternalOrder × Nat) × Nat => x.2 ≠ y.2)
      (l.drop k) := hdrop.imp (fun h => h.2.2)
  have hAtake : A ∈ l.take k := by
    by_contra hAn
    have hAdrop : A ∈ l.drop k := by
      rw [← hsplit] at hA
      rcases List.mem_append.1 hA with h | h
      · exact absurd h hAn
      · exact h
    rw [← hsplit] at hB
    rcases List.mem_append.1 hB with hBt | hBd
    · exact hnot (hcross B hBt A hAdrop)
    · rcases hshape with hsh | ⟨e, tl, q, hd, hq, -, hsh⟩
      · rw [hsh, stamped_quantity_of_mem _ hstamps B hBd] at hred
        omega
      · rw [hd] at hBd hAdrop hstamps hdrop
        rw [List.pairwise_cons] at hdrop
        rcases List.mem_cons.1 hBd with rfl | hBtl
        · rcases List.mem_cons.1 hAdrop with rfl | hAtl
          · exact hne rfl
          · exact hnot (hdrop.1 A hAtl)
        · have hst : List.Pairwise (fun x y : (InternalOrder × Nat) × Nat => x.2 ≠ y.2)
              (((e.1.1, q), e.2) :: tl) := by
            rw [List.pairwise_cons] at hstamps ⊢
            exact ⟨fun y hy => hstamps.1 y hy, hstamps.2⟩
          rw [hsh, stamped_quantity_of_mem _ hst B (List.mem_cons_of_mem _ hBtl)] at hred
          omega
  refine ⟨hzero A hAtake, ?_⟩
  intro e he
  have : ∃ e1 ∈ l.drop k, e1.2 = e.2 := by
    rcases hshape with hsh | ⟨e0, tl, q, hd, -, -, hsh⟩
    · rw [hsh] at he; exact ⟨e, he, rfl⟩
    · rw [hsh] at he
      rw [hd]
      rcases List.mem_cons.1 he with rfl | he1
      · exact ⟨e0, by simp, rfl⟩
      · exact ⟨e, List.mem_cons_of_mem _ he1, rfl⟩
  obtain ⟨e1, he1, h12⟩ := this
  have := (hcross A hAtake e1 he1).2.2
  rw [← h12]
  exact fun h => this h.symm

/-- C2 (price-time priority): in a market reached from empty books by `execute_order`
calls, replayed with arrival stamps, let `A` and `B` rest in the book opposing the incoming
order.  If the call leaves `B` with a smaller quantity than before (0 when it is gone) and
`A` has a better price than `B` (lower in the ask book, higher in the bid book) or the same
price and an earlier arrival, then the loop brings the quantity of `A` to 0 and `A` is not
in the book afterwards. -/
theorem price_time_priority (os : List Order) (order : Order)
    (A B : (InternalOrder × Nat) × Nat)
    (hA : A ∈ (stamped_run StampedMarket.empty os).opposing order.side)
    (hB : B ∈ (stamped_run StampedMarket.empty os).opposing order.side)
    (hred : stamped_quantity
      ((stamped_execute (stamped_run StampedMarket.empty os) order).opposing order.side) B.2
        < B.1.2)
    (hprio : (if order.side = BUY_SIDE then A.1.1.price < B.1.1.price
        else A.1.1.price > B.1.1.price) ∨
      (A.1.1.price = B.1.1.price ∧ A.2 < B.2)) :
    ((A.1.1, 0), A.2) ∈ stamped_scan (if order.side = BUY_SIDE then BuyComp else SellComp)
        ((stamped_run StampedMarket.empty os).opposing order.side) order ∧
      (∀ e ∈ (stamped_execute (stamped_run StampedMarket.empty os) order).opposing order.side,
        e.2 ≠ A.2) ∧
      stamped_quantity
        ((stamped_execute (stamped_run StampedMarket.empty os) order).opposing order.side) A.2
          = 0 := by
  have hord := stamped_run_ordered StampedMarket.empty os stamped_empty_ordered
  generalize stamped_run StampedMarket.empty os = sm at *
  obtain ⟨hb, hs, -, -⟩ := hord
  by_cases hside : order.side = BUY_SIDE
  · simp only [StampedMarket.opposing, stamped_execute, hside, if_true] at hA hB hred hprio ⊢
    have hne : sm.sell_orders ≠ [] := List.ne_nil_of_mem hA
    rw [stamped_execute_side_of_ne BuyComp _ _ order _ hne] at hred ⊢
    simp only at hred ⊢
    have hp : SellComp A.1.1 B.1.1 = true ∨
        (SellComp A.1.1 B.1.1 = false ∧ SellComp B.1.1 A.1.1 = false ∧ A.2 < B.2) := by
      simp only [SellComp, decide_eq_true_eq, decide_eq_false_iff_not]
      omega
    obtain ⟨r1, r2⟩ := priority_core BuyComp SellComp SellComp_ok sm.sell_orders order hs A B
      hA hB hred hp
    exact ⟨r1, r2, stamped_quantity_of_absent _ _ r2⟩
  · simp only [StampedMarket.opposing, stamped_execute, hside, if_false] at hA hB hred hprio ⊢
    have hne : sm.buy_orders ≠ [] := List.ne_nil_of_mem hA
    rw [stamped_execute_side_of_ne SellComp _ _ order _ hne] at hred ⊢
    simp only at hred ⊢
    have hp : BuyComp A.1.1 B.1.1 = true ∨
        (BuyComp A.1.1 B.1.1 = false ∧ BuyComp B.1.1 A.1.1 = false ∧ A.2 < B.2) := by
      simp only [BuyComp, gt_iff_lt, decide_eq_true_eq, decide_eq_false_iff_not]
      omega
    obtain ⟨r1, r2⟩ := priority_core SellComp BuyComp BuyComp_ok sm.buy_orders order hb A B
      hA hB hred hp
    exact ⟨r1, r2, stamped_quantity_of_absent _ _ r2⟩

/-- Witness of C2: with Eve:5@101 inserted before Dan:5@100 and Gus:5@100,
`Buy(Fay, 12, 101)` reduces Eve to 3; Dan, at a better price although he arrived later,
is consumed and gone from the ask book, which is left holding Eve:3@101. -/
theorem price_time_priority_witness :
    (stamped_run StampedMarket.empty priority_example).sell_orders =
        [((⟨"Dan", 100⟩, 5), 1), ((⟨"Gus", 100⟩, 5), 2), ((⟨"Eve", 101⟩, 5), 0)] ∧
      (stamped_execute (stamped_run StampedMarket.empty priority_example)
          (Buy "Fay" 12 101)).sell_orders = [((⟨"Eve", 101⟩, 3), 0)] ∧
      (((((⟨"Dan", 100⟩, 5), 1) : (InternalOrder × Nat) × Nat).1.1, 0), 1) ∈
        stamped_scan (if (Buy "Fay" 12 101).side = BUY_SIDE then BuyComp else SellComp)
          ((stamped_run StampedMarket.empty priority_example).opposing (Buy "Fay" 12 101).side)
          (Buy "Fay" 12 101) ∧
      (∀ e ∈ (stamped_execute (stamped_run StampedMarket.empty priority_example)
          (Buy "Fay" 12 101)).opposing (Buy "Fay" 12 101).side, e.2 ≠ 1) :=
  ⟨by decide, by decide,
    (price_time_priority priority_example (Buy "Fay" 12 101)
      ((⟨"Dan", 100⟩, 5), 1) ((⟨"Eve", 101⟩, 5), 0) (by decide) (by decide) (by decide)
      (Or.inl (by decide))).1,
    (price_time_priority priority_example (Buy "Fay" 12 101)
      ((⟨"Dan", 100⟩, 5), 1) ((⟨"Eve", 101⟩, 5), 0) (by decide) (by decide) (by decide)
      (Or.inl (by decide))).2.1⟩

/-! ## Independence from the unspecified part of `std::sort`

`std::sort` may return any permutation of its input that is sorted by `TradeComp`.  The
report of `execute_order` is the same for each of them. -/

theorem order_eq_of_key_quantity {a b : Order} (hk : trade_key a = trade_key b)
    (hq : a.quantity = b.quantity) : a = b := by
  obtain ⟨⟨at1, ap⟩, as1, aq⟩ := a
  obtain ⟨⟨bt, bp⟩, bs, bq⟩ := b
  simp only [trade_key, Prod.mk.injEq] at hk
  simp only at hq
  simp [hk.1, hk.2.1, hk.2.2, hq]

theorem mem_merge_trades_iff (s raw : Trades) (hp : s.Perm raw)
    (hs : List.Pairwise (fun a b => TradeComp b a = false) s)
    (hw : ∀ k, key_sum k raw < UINT_RANGE) (x : Order) :
    x ∈ merge_trades s ↔
      (∃ y ∈ raw, trade_key y = trade_key x) ∧ x.quantity = key_sum (trade_key x) raw := by
  have hw1 : ∀ k, key_sum k s < UINT_RANGE := fun k => by
    unfold key_sum; rw [qty_sum_perm _ hp]; exact hw k
  have hfwd : ∀ z ∈ merge_trades s, z.quantity = key_sum (trade_key z) raw := by
    intro z hz
    rw [← key_sum_of_strict _ (merge_trades_strict s hs) z hz]
    unfold key_sum
    rw [merge_trades_sum _ (key_pred_invariant _) s hs hw1, qty_sum_perm _ hp]
  constructor
  · intro hx
    obtain ⟨y, hy, hxy⟩ := merge_trades_key_mem s x hx
    exact ⟨⟨y, hp.mem_iff.1 hy, hxy.symm⟩, hfwd x hx⟩
  · rintro ⟨⟨y, hy, hyx⟩, hq⟩
    obtain ⟨z, hz, hzy⟩ := merge_trades_key_complete s hs y (hp.mem_iff.2 hy)
    have hzx : trade_key z = trade_key x := hzy.trans hyx
    have : z = x := order_eq_of_key_quantity hzx (by rw [hfwd z hz, hq, hzx])
    rw [← this]; exact hz

theorem strict_sorted_ext {l1 l2 : Trades}
    (h1 : List.Pairwise (fun a b => TradeComp a b = true) l1)
    (h2 : List.Pairwise (fun a b => TradeComp a b = true) l2)
    (hmem : ∀ x, x ∈ l1 ↔ x ∈ l2) : l1 = l2 := by
  have hnd : ∀ l : Trades, List.Pairwise (fun a b => TradeComp a b = true) l → l.Nodup :=
    fun l hl => hl.imp (fun {a b} hab hEq => by
      rw [hEq, TradeComp_irrefl] at hab; cases hab)
  have hperm : l1.Perm l2 := (List.perm_ext_iff_of_nodup (hnd l1 h1) (hnd l2 h2)).2 hmem
  exact @List.eq_of_perm_of_sorted Order (fun a b => TradeComp a b = true)
    ⟨fun a b hab hba => by
      have := ((TradeComp_iff a b).1 hab).trans ((TradeComp_iff b a).1 hba)
      exact absurd this (lt_irrefl _)⟩ l1 l2 hperm h1 h2

/-- Whatever sorted permutation `s` of the raw fragments `std::sort` produces, the report
(`merge_trades s` when there are more than two fragments, `s` otherwise) is the one computed
by `execute_order` with the insertion sort. -/
theorem report_independent_of_sort (m : Market) (order : Order)
    (hq : order.quantity < UINT_RANGE) (s : Trades)
    (hperm : s.Perm (raw_execute m order).trades)
    (hsorted : List.Pairwise (fun a b => TradeComp b a = false) s) :
    (if s.length > 2 then merge_trades s else s) = (execute_order m order).1 := by
  have hw : ∀ k, key_sum k (raw_execute m order).trades < UINT_RANGE := fun k =>
    lt_of_le_of_lt (raw_execute_key_sum_le m order k) hq
  have hstrict := aggregate_raw_strict m order
  have hlen : s.length = (sort_trades (raw_execute m order).trades).length := by
    rw [sort_trades_length]; exact hperm.length_eq
  show _ = aggregate (raw_execute m order).trades
  by_cases hl : s.length > 2
  · have hne : (raw_execute m order).trades ≠ [] := by
      intro h0
      rw [h0] at hperm
      rw [hperm.eq_nil] at hl
      simp at hl
    have hagg : aggregate (raw_execute m order).trades =
        merge_trades (sort_trades (raw_execute m order).trades) := by
      unfold aggregate; simp [hne, ← hlen, hl]
    rw [hagg] at hstrict ⊢
    rw [if_pos hl]
    refine strict_sorted_ext (merge_trades_strict s hsorted) hstrict (fun x => ?_)
    rw [mem_merge_trades_iff s _ hperm hsorted hw,
      mem_merge_trades_iff _ _ (sort_trades_perm _) (sort_trades_sorted _) hw]
  · have hagg : aggregate (raw_execute m order).trades =
        sort_trades (raw_execute m order).trades := by
      unfold aggregate
      by_cases hne : (raw_execute m order).trades = []
      · simp [hne, sort_trades]
      · simp [hne, ← hlen, hl]
    rw [hagg] at hstrict ⊢
    rw [if_neg hl]
    have hp2 : s.Perm (sort_trades (raw_execute m order).trades) :=
      hperm.trans (sort_trades_perm _).symm
    have hkeys : List.Pairwise (fun a b => trade_key a ≠ trade_key b) s :=
      hp2.symm.pairwise (hstrict.imp (fun h => TradeComp_key_ne h)) (fun h => h.symm)
    refine strict_sorted_ext ?_ hstrict (fun x => hp2.mem_iff)
    refine (hsorted.and hkeys).imp ?_
    rintro a b ⟨hle, hne⟩
    by_contra hab
    exact hne ((TradeComp_both_false_iff a b).1 ⟨by simpa using hab, hle⟩)

/-! ## Resting quantities when every incoming quantity is positive -/

theorem stamped_execute_side_positive (c : InternalOrder → InternalOrder → Bool)
    (opp same : StampedOrders) (a : Order) (n : Nat) (ha : 0 < a.quantity)
    (h1 : ∀ e ∈ opp, 0 < e.1.2) (h2 : ∀ e ∈ same, 0 < e.1.2) :
    (∀ e ∈ (stamped_execute_side c opp same a n).1, 0 < e.1.2) ∧
      (∀ e ∈ (stamped_execute_side c opp same a n).2, 0 < e.1.2) := by
  by_cases h : opp = []
  · subst h
    rw [stamped_execute_side_nil]
    refine ⟨by simp, ?_⟩
    intro e he
    rcases (stamped_insert_mem c _ _ n same e).1 he with rfl | he1
    · exact ha
    · exact h2 e he1
  · rw [stamped_execute_side_of_ne c opp same a n h]
    constructor
    · intro e he
      simp only at he
      obtain ⟨-, -, hshape⟩ := stamped_scan_shape c opp a
      rcases hshape with hsh | ⟨e0, tl, q, hd, -, hq, hsh⟩
      · rw [hsh] at he
        exact h1 e (List.mem_of_mem_drop he)
      · rw [hsh] at he
        rcases List.mem_cons.1 he with rfl | he1
        · exact hq
        · exact h1 e (List.mem_of_mem_drop (by rw [hd]; exact List.mem_cons_of_mem _ he1))
    · intro e he
      simp only at he
      split at he
      · exact h2 e he
      · rename_i hrem
        rcases (stamped_insert_mem c _ _ n same e).1 he with rfl | he1
        · exact Nat.pos_of_ne_zero hrem
        · exact h2 e he1

theorem stamped_run_positive (sm : StampedMarket) (os : List Order)
    (hpos : ∀ o ∈ os, 0 < o.quantity)
    (h : (∀ e ∈ sm.buy_orders, 0 < e.1.2) ∧ (∀ e ∈ sm.sell_orders, 0 < e.1.2)) :
    (∀ e ∈ (stamped_run sm os).buy_orders, 0 < e.1.2) ∧
      (∀ e ∈ (stamped_run sm os).sell_orders, 0 < e.1.2) := by
  induction os generalizing sm with
  | nil => exact h
  | cons o os ih =>
    apply ih _ (fun x hx => hpos x (List.mem_cons_of_mem _ hx))
    have ho := hpos o (List.mem_cons_self _ _)
    unfold stamped_execute
    by_cases hside : o.side = BUY_SIDE
    · simp only [hside, if_true]
      exact (stamped_execute_side_positive BuyComp _ _ o sm.clock ho h.2 h.1).symm
    · simp only [hside, if_false]
      exact stamped_execute_side_positive SellComp _ _ o sm.clock ho h.1 h.2

/-- When every submitted order has a positive quantity, no entry rests with quantity 0:
an entry of quantity 0 can only come from a zero-quantity order submitted against an empty
opposing book. -/
theorem positive_orders_rest_positive (os : List Order) (hpos : ∀ o ∈ os, 0 < o.quantity) :
    (∀ e ∈ (run Market.empty os).buy_orders, 0 < e.2) ∧
      (∀ e ∈ (run Market.empty os).sell_orders, 0 < e.2) := by
  have h := stamped_run_positive StampedMarket.empty os hpos
    (by simp [StampedMarket.empty])
  have he := stamped_run_erase StampedMarket.empty os
  rw [stamped_empty_erase] at he
  rw [← he]
  simp only [StampedMarket.erase, List.mem_map, forall_exists_index, and_imp]
  constructor
  · intro e x hx hxe
    rw [← hxe]; exact h.1 x hx
  · intro e x hx hxe
    rw [← hxe]; exact h.2 x hx

/-! ## Example 4 -/

/-- C11 (Example 4): from empty books, after `Sell(Dan, 5, 100)` and `Sell(Eve, 5, 100)`, the
call `Buy(Fay, 7, 100)` matches 5 against Dan and then 2 against Eve; Fay is filled
completely, Dan is removed, Eve is left resting with 3@100 and the bid book stays empty;
the report holds Dan's sell of 5@100, Eve's sell of 2@100 and one buy of 7@100 for Fay. -/
theorem example_time_priority_partial_fill :
    run Market.empty [Sell "Dan" 5 100, Sell "Eve" 5 100] =
        ⟨[], [(⟨"Dan", 100⟩, 5), (⟨"Eve", 100⟩, 5)]⟩ ∧
      (raw_execute (run Market.empty [Sell "Dan" 5 100, Sell "Eve" 5 100])
          (Buy "Fay" 7 100)).trades =
        [Buy "Fay" 5 100, Sell "Dan" 5 100, Buy "Fay" 2 100, Sell "Eve" 2 100] ∧
      (raw_execute (run Market.empty [Sell "Dan" 5 100, Sell "Eve" 5 100])
          (Buy "Fay" 7 100)).aggr_order.quantity = 0 ∧
      execute_order (run Market.empty [Sell "Dan" 5 100, Sell "Eve" 5 100]) (Buy "Fay" 7 100) =
        ([Sell "Dan" 5 100, Sell "Eve" 2 100, Buy "Fay" 7 100],
          ⟨[], [(⟨"Eve", 100⟩, 3)]⟩) := by
  decide

/-! ## The comparators as orderings -/

theorem TradeComp_lex (a b : Order) :
    TradeComp a b = true ↔
      a.trader_id < b.trader_id ∨ (a.trader_id = b.trader_id ∧
        ((a.side = SELL_SIDE ∧ b.side = BUY_SIDE) ∨ (a.side = b.side ∧ a.price < b.price))) := by
  rw [TradeComp_iff]
  unfold lex_key
  rw [Prod.Lex.lt_iff]
  simp only [Prod.Lex.lt_iff]
  have hb : a.side < b.side ↔ (a.side = false ∧ b.side = true) := by
    cases a.side <;> cases b.side <;> decide
  rw [hb]

/-- C14 (comparators): `BuyComp` orders by greater price and `SellComp` by smaller price; each
is irreflexive and transitive, its incomparability is transitive, and it reads the price
only, so two orders of equal price are equivalent whatever their trader_id; `TradeComp` is
the strict lexicographic order on (trader_id, side, price) with Sell before Buy. -/
theorem comparators_strict_weak_orderings :
    ((∀ a b, BuyComp a b = true ↔ a.price > b.price) ∧
      (∀ a, BuyComp a a = false) ∧
      (∀ a b c, BuyComp a b = true → BuyComp b c = true → BuyComp a c = true) ∧
      (∀ a b c, BuyComp a b = false ∧ BuyComp b a = false →
        BuyComp b c = false ∧ BuyComp c b = false →
        BuyComp a c = false ∧ BuyComp c a = false) ∧
      (∀ a b, a.price = b.price → BuyComp a b = false ∧ BuyComp b a = false)) ∧
    ((∀ a b, SellComp a b = true ↔ a.price < b.price) ∧
      (∀ a, SellComp a a = false) ∧
      (∀ a b c, SellComp a b = true → SellComp b c = true → SellComp a c = true) ∧
      (∀ a b c, SellComp a b = false ∧ SellComp b a = false →
        SellComp b c = false ∧ SellComp c b = false →
        SellComp a c = false ∧ SellComp c a = false) ∧
      (∀ a b, a.price = b.price → SellComp a b = false ∧ SellComp b a = false)) ∧
    ((∀ a b : Order, TradeComp a b = true ↔
        a.trader_id < b.trader_id ∨ (a.trader_id = b.trader_id ∧
          ((a.side = SELL_SIDE ∧ b.side = BUY_SIDE) ∨
            (a.side = b.side ∧ a.price < b.price)))) ∧
      (∀ a : Order, TradeComp a a = false) ∧
      (∀ a b c : Order, TradeComp a b = true → TradeComp b c = true → TradeComp a c = true) ∧
      (∀ a b : Order, TradeComp a b = false ∧ TradeComp b a = false ↔
        trade_key a = trade_key b)) := by
  refine ⟨⟨?_, ?_, ?_, ?_, ?_⟩, ⟨?_, ?_, ?_, ?_, ?_⟩, ⟨TradeComp_lex, TradeComp_irrefl,
    fun a b c h1 h2 => TradeComp_trans h1 h2, TradeComp_both_false_iff⟩⟩
  all_goals
    intros
    simp only [BuyComp, SellComp, gt_iff_lt, decide_eq_true_eq, decide_eq_false_iff_not] at *
    try omega

/-! ## The additions of `merge_trades` -/

theorem merge_from_sums_le (B : Nat) (hB : B < UINT_RANGE) (cur : Order) (l : Trades)
    (hs : List.Pairwise (fun a b => TradeComp b a = false) (cur :: l))
    (hw : ∀ k, key_sum k (cur :: l) ≤ B) : ∀ x ∈ merge_from_sums cur l, x ≤ B := by
  induction l generalizing cur with
  | nil => intro x hx; simp [merge_from_sums] at hx
  | cons t tl ih =>
    rw [List.pairwise_cons] at hs
    obtain ⟨hcur, htl⟩ := hs
    intro x hx
    unfold merge_from_sums at hx
    split at hx
    · rename_i hct
      have hct : TradeComp cur t = false := by simpa using hct
      have hkey : trade_key cur = trade_key t :=
        (TradeComp_both_false_iff cur t).1 ⟨hct, hcur t (by simp)⟩
      have hle : cur.quantity + t.quantity ≤ B := by
        have h1 := hw (trade_key cur)
        unfold key_sum at h1
        rw [qty_sum_cons, qty_sum_cons] at h1
        simp only [beq_self_eq_true, if_true, ← hkey] at h1
        omega
      have hq : (cur.quantity + t.quantity) % UINT_RANGE = cur.quantity + t.quantity :=
        Nat.mod_eq_of_lt (lt_of_le_of_lt hle hB)
      rcases List.mem_cons.1 hx with rfl | hx1
      · exact hle
      · refine ih _ ?_ ?_ x hx1
        · rw [List.pairwise_cons]
          refine ⟨fun b hb => ?_, (List.pairwise_cons.1 htl).2⟩
          have := hcur b (List.mem_cons_of_mem _ hb)
          rw [← this]
          exact TradeComp_of_key_eq_right rfl b
        · intro k
          unfold key_sum
          rw [qty_sum_merge_step _ (key_pred_invariant k) cur t
            { cur with quantity := (cur.quantity + t.quantity) % UINT_RANGE } tl hkey rfl hq]
          exact hw k
    · refine ih t htl ?_ x hx
      intro k
      refine le_trans ?_ (hw k)
      unfold key_sum
      rw [qty_sum_cons _ cur (t :: tl)]
      omega

theorem merge_trades_sums_le (B : Nat) (hB : B < UINT_RANGE) (l : Trades)
    (hs : List.Pairwise (fun a b => TradeComp b a = false) l)
    (hw : ∀ k, key_sum k l ≤ B) : ∀ x ∈ merge_trades_sums l, x ≤ B := by
  cases l with
  | nil => intro x hx; simp [merge_trades_sums] at hx
  | cons t tl => exact merge_from_sums_le B hB t tl hs hw

/-- C18 (merging never wraps): for an incoming order whose quantity is an `unsigned int`,
every sum formed by the `+=` of `merge_trades` inside `execute_order` is at most the
original quantity of the incoming order, so its reduction modulo `2 ^ 32` is the exact sum,
and every quantity of the report is at most that quantity as well. -/
theorem merging_never_wraps (m : Market) (order : Order) (hq : order.quantity < UINT_RANGE) :
    (∀ x ∈ execute_order_sums m order, x ≤ order.quantity ∧ x % UINT_RANGE = x) ∧
      (∀ t ∈ (execute_order m order).1,
        t.quantity ≤ order.quantity ∧ t.quantity < UINT_RANGE ∧
        t.quantity = key_sum (trade_key t) (raw_execute m order).trades) := by
  have hle : ∀ k, key_sum k (raw_execute m order).trades ≤ order.quantity :=
    raw_execute_key_sum_le m order
  constructor
  · intro x hx
    unfold execute_order_sums at hx
    split at hx
    · have hx1 : x ≤ order.quantity := by
        refine merge_trades_sums_le order.quantity hq _ (sort_trades_sorted _) ?_ x hx
        intro k
        unfold key_sum
        rw [qty_sum_perm _ (sort_trades_perm _)]
        exact hle k
      exact ⟨hx1, Nat.mod_eq_of_lt (lt_of_le_of_lt hx1 hq)⟩
    · cases hx
  · intro t ht
    have hw : ∀ k, key_sum k (raw_execute m order).trades < UINT_RANGE := fun k =>
      lt_of_le_of_lt (hle k) hq
    have hsum : t.quantity = key_sum (trade_key t) (raw_execute m order).trades := by
      rw [← key_sum_of_strict _ (aggregate_raw_strict m order) t ht]
      exact aggregate_sum _ (key_pred_invariant _) _ hw
    have h1 : t.quantity ≤ order.quantity := by rw [hsum]; exact hle _
    exact ⟨h1, lt_of_le_of_lt h1 hq, hsum⟩

/-- Witness of C18 on Example 4: the one addition of `merge_trades` is 5 + 2 for Fay. -/
theorem merging_never_wraps_witness :
    (Buy "Fay" 7 100).quantity < UINT_RANGE ∧
      execute_order_sums ⟨[], [(⟨"Dan", 100⟩, 5), (⟨"Eve", 100⟩, 5)]⟩ (Buy "Fay" 7 100) = [7] ∧
      (∀ x ∈ execute_order_sums ⟨[], [(⟨"Dan", 100⟩, 5), (⟨"Eve", 100⟩, 5)]⟩ (Buy "Fay" 7 100),
        x ≤ (Buy "Fay" 7 100).quantity ∧ x % UINT_RANGE = x) :=
  ⟨by decide, by decide,
    (merging_never_wraps ⟨[], [(⟨"Dan", 100⟩, 5), (⟨"Eve", 100⟩, 5)]⟩ (Buy "Fay" 7 100)
      (by decide)).1⟩

/-! ## `merge_trades` on sorted and on unsorted input -/

theorem key_sum_merge_step_mod (k : String × Bool × Nat) (cur t : Order) (tl : Trades)
    (hk : trade_key cur = trade_key t) :
    key_sum k ({ cur with quantity := (cur.quantity + t.quantity) % UINT_RANGE } :: tl)
        % UINT_RANGE =
      key_sum k (cur :: t :: tl) % UINT_RANGE := by
  unfold key_sum
  rw [qty_sum_cons, qty_sum_cons, qty_sum_cons]
  have h1 : trade_key ({ cur with quantity := (cur.quantity + t.quantity) % UINT_RANGE } : Order)
      = trade_key cur := rfl
  simp only [h1, ← hk]
  by_cases hc : (trade_key cur == k) = true
  · simp only [hc, if_true]
    rw [Nat.mod_add_mod, Nat.add_assoc]
  · simp only [hc]
    simp

theorem sorted_after_strict_head (cur t : Order) (tl : Trades)
    (hct : TradeComp cur t = true)
    (htl : List.Pairwise (fun a b => TradeComp b a = false) (t :: tl)) :
    ∀ y ∈ t :: tl, TradeComp cur y = true := by
  intro y hy
  rcases List.mem_cons.1 hy with rfl | h
  · exact hct
  · have h1 := (List.pairwise_cons.1 htl).1 y h
    rw [TradeComp_iff] at hct ⊢
    rw [TradeComp_false_iff] at h1
    exact lt_of_lt_of_le hct h1

/-- On a sorted vector of `unsigned int` quantities every fragment left by `merge_trades`
holds the sum, modulo `2 ^ 32`, of the quantities of the input fragments with its key. -/
theorem merge_from_quantity_mod (cur : Order) (l : Trades)
    (hs : List.Pairwise (fun a b => TradeComp b a = false) (cur :: l))
    (hr : ∀ t ∈ cur :: l, t.quantity < UINT_RANGE) :
    ∀ x ∈ merge_from cur l, x.quantity = key_sum (trade_key x) (cur :: l) % UINT_RANGE := by
  induction l generalizing cur with
  | nil =>
    intro x hx
    simp only [merge_from, List.mem_singleton] at hx
    subst hx
    unfold key_sum
    rw [qty_sum_cons, qty_sum_nil]
    simp only [beq_self_eq_true, if_true, Nat.add_zero]
    exact (Nat.mod_eq_of_lt (hr x (by simp))).symm
  | cons t tl ih =>
    rw [List.pairwise_cons] at hs
    obtain ⟨hcur, htl⟩ := hs
    intro x hx
    unfold merge_from at hx
    split at hx
    · rename_i hct
      have hct : TradeComp cur t = false := by simpa using hct
      have hkey : trade_key cur = trade_key t :=
        (TradeComp_both_false_iff cur t).1 ⟨hct, hcur t (by simp)⟩
      rw [← key_sum_merge_step_mod _ cur t tl hkey]
      refine ih _ ?_ ?_ x hx
      · rw [List.pairwise_cons]
        refine ⟨fun b hb => ?_, (List.pairwise_cons.1 htl).2⟩
        have := hcur b (List.mem_cons_of_mem _ hb)
        rw [← this]
        exact TradeComp_of_key_eq_right rfl b
      · intro y hy
        rcases List.mem_cons.1 hy with rfl | hy1
        · exact Nat.mod_lt _ (by decide)
        · exact hr y (List.mem_cons_of_mem _ (List.mem_cons_of_mem _ hy1))
    · rename_i hct
      have hct : TradeComp cur t = true := by simpa using hct
      have hlater := sorted_after_strict_head cur t tl hct htl
      rcases List.mem_cons.1 hx with rfl | hx1
      · have h0 : key_sum (trade_key x) (t :: tl) = 0 :=
          key_sum_eq_zero _ _ (fun y hy => (TradeComp_key_ne (hlater y hy)).symm)
        unfold key_sum at h0 ⊢
        rw [qty_sum_cons, h0]
        simp only [beq_self_eq_true, if_true, Nat.add_zero]
        exact (Nat.mod_eq_of_lt (hr x (by simp))).symm
      · rw [ih t htl (fun y hy => hr y (List.mem_cons_of_mem _ hy)) x hx1]
        obtain ⟨y, hy, hxy⟩ := merge_from_key_mem t tl x hx1
        have hne : trade_key cur ≠ trade_key x := by
          rw [hxy]; exact TradeComp_key_ne (hlater y hy)
        unfold key_sum
        rw [qty_sum_cons _ cur (t :: tl)]
        simp [hne]

/-- C19 (sorted input): on a vector sorted by `TradeComp`, with `unsigned int` quantities,
`merge_trades` leaves exactly one fragment for each key of the input, in strictly ascending
order, holding the sum modulo `2 ^ 32` of the quantities of the input fragments with that
key.  On the unsorted vector `[B buys 1@10, A buys 2@10]`, whose two keys differ, it adds
the second quantity into the first fragment and drops the second fragment. -/
theorem merge_trades_relies_on_sorted_input (l : Trades)
    (hs : List.Pairwise (fun a b => TradeComp b a = false) l)
    (hr : ∀ t ∈ l, t.quantity < UINT_RANGE) :
    (List.Pairwise (fun a b => TradeComp a b = true) (merge_trades l) ∧
      (∀ k, (∃ x ∈ merge_trades l, trade_key x = k) ↔ (∃ y ∈ l, trade_key y = k)) ∧
      (∀ x ∈ merge_trades l, x.quantity = key_sum (trade_key x) l % UINT_RANGE)) ∧
    (¬ List.Pairwise (fun a b => TradeComp b a = false) [Buy "B" 1 10, Buy "A" 2 10] ∧
      trade_key (Buy "B" 1 10) ≠ trade_key (Buy "A" 2 10) ∧
      merge_trades [Buy "B" 1 10, Buy "A" 2 10] = [Buy "B" 3 10]) := by
  refine ⟨⟨merge_trades_strict l hs, ?_, ?_⟩, by decide, by decide, by decide⟩
  · intro k
    constructor
    · rintro ⟨x, hx, rfl⟩
      obtain ⟨y, hy, hxy⟩ := merge_trades_key_mem l x hx
      exact ⟨y, hy, hxy.symm⟩
    · rintro ⟨y, hy, rfl⟩
      exact merge_trades_key_complete l hs y hy
  · cases l with
    | nil => intro x hx; simp [merge_trades] at hx
    | cons t tl => exact merge_from_quantity_mod t tl hs hr

/-- Witness of C19 on the sorted vector `[A buys 1@10, A buys 2@10, B buys 4@10]`: the run of
A is merged into one fragment of quantity 3 and B is kept apart. -/
theorem merge_trades_relies_on_sorted_input_witness :
    merge_trades [Buy "A" 1 10, Buy "A" 2 10, Buy "B" 4 10] = [Buy "A" 3 10, Buy "B" 4 10] ∧
      (∀ x ∈ merge_trades [Buy "A" 1 10, Buy "A" 2 10, Buy "B" 4 10],
        x.quantity =
          key_sum (trade_key x) [Buy "A" 1 10, Buy "A" 2 10, Buy "B" 4 10] % UINT_RANGE) :=
  ⟨by decide,
    (merge_trades_relies_on_sorted_input [Buy "A" 1 10, Buy "A" 2 10, Buy "B" 4 10]
      (by decide) (by decide)).1.2.2⟩

/-! ## The walk of the loop over the opposing book -/

theorem side_sum_take_step (s : Bool) (q : Nat) (k1 k2 : InternalOrder) (T : Trades)
    (j : Nat) :
    side_sum s ((⟨k1, s, q⟩ :: ⟨k2, !s, q⟩ :: T).take (2 * (j + 1))) =
      q + side_sum s (T.take (2 * j)) := by
  have e1 : 2 * (j + 1) = (2 * j + 1) + 1 := by omega
  rw [e1]
  simp only [List.take_succ_cons, side_sum, qty_sum_cons]
  have hb : ((!s) == s) = false := by cases s <;> rfl
  simp [hb]

/-- The loop visits the first `v` entries of the opposing book: each visited entry is
acceptable and met with a non-zero remainder of the aggressor, and is decremented by the
minimum of its quantity and that remainder; the loop stops at entry `v` when the book
ends, the price is not acceptable or the remainder is 0; later entries are untouched. -/
theorem scan_walk (c : InternalOrder → InternalOrder → Bool) (l : InternalOrders) (a : Order) :
    ∃ v, v ≤ l.length ∧ (scan c l a).trades.length = 2 * v ∧
      (∀ i, i < v → ∃ e, l[i]? = some e ∧ c e.1 a.toInternalOrder = false ∧
        a.quantity - side_sum a.side ((scan c l a).trades.take (2 * i)) ≠ 0 ∧
        (scan c l a).opposing[i]? = some (e.1, e.2 - min e.2
          (a.quantity - side_sum a.side ((scan c l a).trades.take (2 * i))))) ∧
      (∀ e, l[v]? = some e → c e.1 a.toInternalOrder = true ∨
        a.quantity - side_sum a.side ((scan c l a).trades.take (2 * v)) = 0) ∧
      (∀ i, v ≤ i → (scan c l a).opposing[i]? = l[i]?) := by
  induction l generalizing a with
  | nil => exact ⟨0, by simp [scan_nil]⟩
  | cons x tl ih =>
    obtain ⟨ro, rq⟩ := x
    rcases scan_cases c ro a with hstop | ⟨h1, h2⟩
    · refine ⟨0, by simp, by simp [scan_cons_stop c ro rq tl a hstop], by simp, ?_, ?_⟩
      · intro e he
        simp only [List.getElem?_cons_zero, Option.some.injEq] at he
        subst he
        rcases hstop with h | h
        · exact Or.inl h
        · exact Or.inr (by simp [h])
      · intro i _
        rw [scan_cons_stop c ro rq tl a hstop]
    · obtain ⟨v, hv, hlen, hvis, hstop, hrest⟩ :=
        ih { a with quantity := a.quantity - min rq a.quantity }
      rw [scan_cons_step c ro rq tl a h1 h2]
      have hshift : ∀ (T : Trades) (j : Nat), a.quantity - side_sum a.side
          ((⟨⟨a.trader_id, ro.price⟩, a.side, min rq a.quantity⟩ ::
              ⟨⟨ro.trader_id, ro.price⟩, !a.side, min rq a.quantity⟩ :: T).take
            (2 * (j + 1))) =
          (a.quantity - min rq a.quantity) - side_sum a.side (T.take (2 * j)) := by
        intro T j
        rw [side_sum_take_step, Nat.sub_add_eq]
      refine ⟨v + 1, by simp only [List.length_cons]; omega,
        by simp only [List.length_cons]; omega, ?_, ?_, ?_⟩
      · intro i hi
        cases i with
        | zero =>
          exact ⟨(ro, rq), by simp, h1, by simpa [side_sum, qty_sum_nil] using h2,
            by simp [side_sum, qty_sum_nil]⟩
        | succ j =>
          obtain ⟨e, he, hc, hrem, hopp⟩ := hvis j (by omega)
          rw [hshift _ j]
          exact ⟨e, by simpa using he, hc, hrem, by simpa using hopp⟩
      · intro e he
        rw [hshift _ v]
        exact hstop e (by simpa using he)
      · intro i hi
        cases i with
        | zero => omega
        | succ j =>
          simp only [List.getElem?_cons_succ]
          exact hrest j (by omega)

theorem qty_sum_append (p : Order → Bool) (l1 l2 : Trades) :
    qty_sum p (l1 ++ l2) = qty_sum p l1 + qty_sum p l2 := by
  unfold qty_sum
  simp [List.filter_append]

/-- C12 (raw fragments of the scan): `_execute_order` visits the first `v` entries of the
opposing book.  Entry `i < v` has an acceptable price and is met with a non-zero remainder
`rem i` of the incoming quantity (the original quantity minus the overlaps of the earlier
steps); with `overlap = min (resting quantity) (rem i)` the step emits fragment `2 * i` =
(incoming trader_id, incoming side, overlap, resting price) and fragment `2 * i + 1` =
(resting trader_id, opposite side, overlap, resting price), leaves the entry with its
quantity minus overlap and the incoming order with `rem i - overlap`.  The loop stops at
entry `v`: the book ends there, or its price is not acceptable, or the remainder is 0;
later entries are untouched, and there are exactly `2 * v` fragments. -/
theorem raw_fragments_of_scan (c : InternalOrder → InternalOrder → Bool)
    (opp same : InternalOrders) (a : Order) :
    ∃ v, v ≤ opp.length ∧ (_execute_order c opp same a).trades.length = 2 * v ∧
      (∀ i, i < v → ∃ e, opp[i]? = some e ∧ c e.1 a.toInternalOrder = false ∧
        a.quantity - side_sum a.side ((_execute_order c opp same a).trades.take (2 * i)) ≠ 0 ∧
        (_execute_order c opp same a).trades[2 * i]? =
          some ⟨⟨a.trader_id, e.1.price⟩, a.side, min e.2
            (a.quantity - side_sum a.side ((_execute_order c opp same a).trades.take (2 * i)))⟩ ∧
        (_execute_order c opp same a).trades[2 * i + 1]? =
          some ⟨⟨e.1.trader_id, e.1.price⟩, !a.side, min e.2
            (a.quantity - side_sum a.side ((_execute_order c opp same a).trades.take (2 * i)))⟩ ∧
        (scan c opp a).opposing[i]? = some (e.1, e.2 - min e.2
          (a.quantity - side_sum a.side ((_execute_order c opp same a).trades.take (2 * i)))) ∧
        a.quantity - side_sum a.side ((_execute_order c opp same a).trades.take (2 * (i + 1))) =
          (a.quantity - side_sum a.side ((_execute_order c opp same a).trades.take (2 * i))) -
            min e.2
              (a.quantity -
                side_sum a.side ((_execute_order c opp same a).trades.take (2 * i)))) ∧
      (∀ e, opp[v]? = some e → c e.1 a.toInternalOrder = true ∨
        a.quantity - side_sum a.side ((_execute_order c opp same a).trades.take (2 * v)) = 0) ∧
      (∀ i, v ≤ i → (scan c opp a).opposing[i]? = opp[i]?) ∧
      (_execute_order c opp same a).aggr_order.quantity =
        a.quantity - side_sum a.side ((_execute_order c opp same a).trades.take (2 * v)) := by
  obtain ⟨ht, ha⟩ := _execute_order_trades c opp same a
  rw [ht, ha]
  obtain ⟨v, hv, hlen, hvis, hstop, hrest⟩ := scan_walk c opp a
  refine ⟨v, hv, hlen, ?_, hstop, hrest, ?_⟩
  · intro i hi
    obtain ⟨e, he, hc, hrem, hopp⟩ := hvis i hi
    have hsome : ∃ t, (scan c opp a).trades[2 * i]? = some t := by
      have : 2 * i < (scan c opp a).trades.length := by omega
      exact ⟨_, List.getElem?_eq_getElem this⟩
    obtain ⟨t, ht0⟩ := hsome
    obtain ⟨e1, he1, hq, hteq, hnext⟩ := scan_step_overlap c opp a i t ht0
    have hee : e1 = e := by rw [he] at he1; exact (Option.some.inj he1).symm
    subst hee
    have h0 : (scan c opp a).trades[2 * i]? = some ⟨⟨a.trader_id, e1.1.price⟩, a.side, min e1.2
        (a.quantity - side_sum a.side ((scan c opp a).trades.take (2 * i)))⟩ := by
      rw [ht0, hteq, hq]
    have h1 : (scan c opp a).trades[2 * i + 1]? = some ⟨⟨e1.1.trader_id, e1.1.price⟩, !a.side,
        min e1.2 (a.quantity - side_sum a.side ((scan c opp a).trades.take (2 * i)))⟩ := by
      rw [hnext, hq]
    refine ⟨e1, he, hc, hrem, h0, h1, hopp, ?_⟩
    have e2 : 2 * (i + 1) = (2 * i + 1) + 1 := by omega
    rw [e2, List.take_succ, List.take_succ, h0, h1]
    simp only [Option.toList, side_sum, qty_sum_append, qty_sum_cons, qty_sum_nil]
    have hb : ((!a.side) == a.side) = false := by cases a.side <;> rfl
    simp only [beq_self_eq_true, if_true, hb, Bool.false_eq_true, if_false, Nat.add_zero]
    omega
  · have hall : (scan c opp a).trades.take (2 * v) = (scan c opp a).trades := by
      rw [← hlen]; exact List.take_length _
    rw [hall, (scan_side_sum c opp a).1]
    have := (scan_aggr c opp a).2.2
    omega

/-! ## The prefix erase -/

/-- The counter `exhausted_rest_orders` counts a prefix: entry `i` of the book left by the
loop is below the counter exactly when step `i` took place and left it with quantity 0. -/
theorem scan_exhausted_front (c : InternalOrder → InternalOrder → Bool) (l : InternalOrders)
    (a : Order) :
    (scan c l a).exhausted_rest_orders ≤ l.length ∧ (scan c l a).opposing.length = l.length ∧
      (∀ i e, (scan c l a).opposing[i]? = some e →
        (i < (scan c l a).exhausted_rest_orders ↔
          (2 * i < (scan c l a).trades.length ∧ e.2 = 0))) := by
  induction l generalizing a with
  | nil => simp [scan_nil]
  | cons x tl ih =>
    obtain ⟨ro, rq⟩ := x
    rcases scan_cases c ro a with hstop | ⟨h1, h2⟩
    · rw [scan_cons_stop c ro rq tl a hstop]
      simp
    · rw [scan_cons_step c ro rq tl a h1 h2]
      by_cases hz : rq - min rq a.quantity = 0
      · obtain ⟨i1, i2, i3⟩ := ih { a with quantity := a.quantity - min rq a.quantity }
        simp only [hz, if_true, List.length_cons]
        refine ⟨by omega, by omega, ?_⟩
        intro i e he
        cases i with
        | zero =>
          simp only [List.getElem?_cons_zero, Option.some.injEq] at he
          subst he
          simp
        | succ j =>
          simp only [List.getElem?_cons_succ] at he
          have := i3 j e he
          constructor
          · intro h
            have h3 := this.1 (by omega)
            exact ⟨by omega, h3.2⟩
          · rintro ⟨h3, h4⟩
            have := this.2 ⟨by omega, h4⟩
            omega
      · have hlt : a.quantity < rq := by
          rcases Nat.lt_or_ge a.quantity rq with h | h
          · exact h
          · rw [Nat.min_eq_left h] at hz; omega
        have hmin : min rq a.quantity = a.quantity := Nat.min_eq_right (Nat.le_of_lt hlt)
        have h0 : ({ a with quantity := a.quantity - min rq a.quantity } : Order).quantity = 0 := by
          simp only [hmin]; omega
        rw [scan_exhausted c _ _ h0]
        simp only [hz, if_false, Nat.add_zero, List.length_cons, List.length_nil]
        refine ⟨Nat.zero_le _, trivial, ?_⟩
        intro i e he
        cases i with
        | zero =>
          simp only [List.getElem?_cons_zero, Option.some.injEq] at he
          subst he
          simp only [Nat.lt_irrefl, false_iff, not_and]
          intro _ h
          exact hz h
        | succ j =>
          simp only [Nat.not_lt_zero, false_iff, not_and]
          intro h
          omega

theorem _execute_order_opposing (c : InternalOrder → InternalOrder → Bool)
    (opp same : InternalOrders) (a : Order) :
    (_execute_order c opp same a).opposing_orders =
      (scan c opp a).opposing.drop (scan c opp a).exhausted_rest_orders := by
  by_cases h : opp = []
  · subst h; simp [_execute_order_nil, scan_nil]
  · rw [_execute_order_of_ne c opp same a h]

/-- C13 (prefix erase): with `k` the final value of `exhausted_rest_orders`, `k` is at most
the size of the opposing book, and the entries whose quantity reached 0 during the loop
(step `i` took place and left entry `i` with quantity 0) are exactly the entries at
positions below `k`; `_execute_order` leaves the book of the loop without its first `k`
entries, so every erased entry has quantity 0. -/
theorem prefix_erase_exact (c : InternalOrder → InternalOrder → Bool)
    (opp same : InternalOrders) (a : Order) :
    (scan c opp a).exhausted_rest_orders ≤ opp.length ∧
      (scan c opp a).opposing.length = opp.length ∧
      (∀ i e, (scan c opp a).opposing[i]? = some e →
        (i < (scan c opp a).exhausted_rest_orders ↔
          (2 * i < (_execute_order c opp same a).trades.length ∧ e.2 = 0))) ∧
      (_execute_order c opp same a).opposing_orders =
        (scan c opp a).opposing.drop (scan c opp a).exhausted_rest_orders ∧
      (∀ e ∈ (scan c opp a).opposing.take (scan c opp a).exhausted_rest_orders, e.2 = 0) := by
  obtain ⟨h1, h2, h3⟩ := scan_exhausted_front c opp a
  rw [(_execute_order_trades c opp same a).1]
  refine ⟨h1, h2, h3, _execute_order_opposing c opp same a, ?_⟩
  intro e he
  obtain ⟨i, hi, hget⟩ := List.getElem_of_mem he
  rw [List.length_take] at hi
  have hi1 : i < (scan c opp a).exhausted_rest_orders := by omega
  have hget1 : (scan c opp a).opposing[i]? = some e := by
    rw [List.getElem_take] at hget
    rw [← hget]
    exact List.getElem?_eq_getElem (by omega)
  exact ((h3 i e hget1).1 hi1).2

/-! ## Frame of a call -/

theorem raw_execute_eq (m : Market) (order : Order) :
    raw_execute m order =
      _execute_order (same_comp order.side) (m.opposing order.side) (m.same_side order.side)
        order := by
  by_cases hside : order.side = BUY_SIDE <;>
    simp [raw_execute, same_comp, Market.opposing, Market.same_side, hside]

theorem execute_order_books (m : Market) (order : Order) :
    (execute_order m order).2.opposing order.side = (raw_execute m order).opposing_orders ∧
      (execute_order m order).2.same_side order.side =
        (raw_execute m order).same_side_orders := by
  by_cases hside : order.side = BUY_SIDE <;>
    simp [execute_order, Market.opposing, Market.same_side, hside]

/-- After the prefix erase the opposing book is the old book without its first
`exhausted_rest_orders` entries, except that its front entry may have a smaller, still
positive, quantity. -/
theorem scan_drop_shape (c : InternalOrder → InternalOrder → Bool) (l : InternalOrders)
    (a : Order) :
    (scan c l a).opposing.drop (scan c l a).exhausted_rest_orders =
        l.drop (scan c l a).exhausted_rest_orders ∨
      ∃ e tl q, l.drop (scan c l a).exhausted_rest_orders = e :: tl ∧ q < e.2 ∧ 0 < q ∧
        (scan c l a).opposing.drop (scan c l a).exhausted_rest_orders = (e.1, q) :: tl := by
  induction l generalizing a with
  | nil => simp [scan_nil]
  | cons x tl ih =>
    obtain ⟨ro, rq⟩ := x
    rcases scan_cases c ro a with h | ⟨h1, h2⟩
    · rw [scan_cons_stop c ro rq tl a h]
      simp
    · rw [scan_cons_step c ro rq tl a h1 h2]
      by_cases hz : rq - min rq a.quantity = 0
      · simp only [hz, if_true]
        rw [Nat.add_comm]
        simpa only [List.drop_succ_cons] using
          ih { a with quantity := a.quantity - min rq a.quantity }
      · have hlt : a.quantity < rq := by
          rcases Nat.lt_or_ge a.quantity rq with h | h
          · exact h
          · rw [Nat.min_eq_left h] at hz; omega
        have hmin : min rq a.quantity = a.quantity := Nat.min_eq_right (Nat.le_of_lt hlt)
        have h0 : ({ a with quantity := a.quantity - min rq a.quantity } : Order).quantity = 0 := by
          simp only [hmin]; omega
        rw [scan_exhausted c _ _ h0]
        simp only [hz, if_false, Nat.add_zero, List.drop_zero]
        refine Or.inr ⟨(ro, rq), tl, rq - min rq a.quantity, rfl, ?_, ?_, rfl⟩
        · simp only [hmin]; omega
        · omega

/-- C16 (frame of a matching call): when the opposing book is not empty, the opposing book
after `execute_order` is the book before without its first `k` entries, all later entries
unchanged and in place, except that the new front entry may have a smaller quantity; the
same-side book is unchanged when the incoming order is filled completely, and otherwise is
the book before with the one entry (trader_id, price, remainder) inserted. -/
theorem frame_of_matching_call (m : Market) (order : Order)
    (hne : m.opposing order.side ≠ []) :
    (∃ k, k ≤ (m.opposing order.side).length ∧
      ((execute_order m order).2.opposing order.side = (m.opposing order.side).drop k ∨
        ∃ e tl q, (m.opposing order.side).drop k = e :: tl ∧ q < e.2 ∧
          (execute_order m order).2.opposing order.side = (e.1, q) :: tl)) ∧
      ((raw_execute m order).aggr_order.quantity = 0 →
        (execute_order m order).2.same_side order.side = m.same_side order.side) ∧
      ((raw_execute m order).aggr_order.quantity ≠ 0 →
        ∃ pre post, m.same_side order.side = pre ++ post ∧
          (execute_order m order).2.same_side order.side =
            pre ++ (order.toInternalOrder, (raw_execute m order).aggr_order.quantity) :: post) := by
  obtain ⟨hb1, hb2⟩ := execute_order_books m order
  rw [hb1, hb2, raw_execute_eq, _execute_order_of_ne _ _ _ _ hne]
  simp only
  refine ⟨⟨(scan (same_comp order.side) (m.opposing order.side) order).exhausted_rest_orders,
    (scan_exhausted_front (same_comp order.side) _ order).1, ?_⟩, ?_, ?_⟩
  · rcases scan_drop_shape (same_comp order.side) (m.opposing order.side) order with h | h
    · exact Or.inl h
    · obtain ⟨e, tl, q, h1, h2, -, h3⟩ := h
      exact Or.inr ⟨e, tl, q, h1, h2, h3⟩
  · intro h0
    rw [if_pos h0]
  · intro h0
    rw [if_neg h0, (scan_aggr _ _ order).1]
    obtain ⟨pre, post, h1, h2, -⟩ := multimap_insert_split (same_comp order.side)
      order.toInternalOrder (scan (same_comp order.side) (m.opposing order.side) order).aggr.quantity
      (m.same_side order.side)
    exact ⟨pre, post, h1, h2⟩

/-- Witness of C16 on Example 4: against Dan:5@100 and Eve:5@100, `Buy(Fay, 7, 100)` removes
the first entry and leaves Eve at the front with 3; the bid book is unchanged. -/
theorem frame_of_matching_call_witness :
    (⟨[], [(⟨"Dan", 100⟩, 5), (⟨"Eve", 100⟩, 5)]⟩ : Market).opposing (Buy "Fay" 7 100).side ≠ [] ∧
      ((raw_execute ⟨[], [(⟨"Dan", 100⟩, 5), (⟨"Eve", 100⟩, 5)]⟩
          (Buy "Fay" 7 100)).aggr_order.quantity = 0 →
        (execute_order ⟨[], [(⟨"Dan", 100⟩, 5), (⟨"Eve", 100⟩, 5)]⟩
            (Buy "Fay" 7 100)).2.same_side (Buy "Fay" 7 100).side =
          (⟨[], [(⟨"Dan", 100⟩, 5), (⟨"Eve", 100⟩, 5)]⟩ : Market).same_side
            (Buy "Fay" 7 100).side) ∧
      (execute_order ⟨[], [(⟨"Dan", 100⟩, 5), (⟨"Eve", 100⟩, 5)]⟩ (Buy "Fay" 7 100)).2 =
        ⟨[], [(⟨"Eve", 100⟩, 3)]⟩ :=
  ⟨by decide,
    (frame_of_matching_call ⟨[], [(⟨"Dan", 100⟩, 5), (⟨"Eve", 100⟩, 5)]⟩ (Buy "Fay" 7 100)
      (by decide)).2.1,
    by decide⟩

/-! ## Book-level conservation -/

theorem total_quantity_cons (e : InternalOrder × Nat) (l : InternalOrders) :
    total_quantity (e :: l) = e.2 + total_quantity l := by
  simp [total_quantity]

theorem total_quantity_append (l1 l2 : InternalOrders) :
    total_quantity (l1 ++ l2) = total_quantity l1 + total_quantity l2 := by
  simp [total_quantity]

theorem total_quantity_zero (l : InternalOrders) (h : ∀ e ∈ l, e.2 = 0) :
    total_quantity l = 0 := by
  induction l with
  | nil => rfl
  | cons x tl ih =>
    rw [total_quantity_cons, h x (by simp), ih (fun e he => h e (List.mem_cons_of_mem _ he))]

theorem total_quantity_insert (c : InternalOrder → InternalOrder → Bool) (k : InternalOrder)
    (q : Nat) (l : InternalOrders) :
    total_quantity (multimap_insert c k q l) = total_quantity l + q := by
  obtain ⟨pre, post, h1, h2, -⟩ := multimap_insert_split c k q l
  rw [h2, h1, total_quantity_append, total_quantity_append, total_quantity_cons]
  simp only
  omega

/-- What the loop takes from the opposing book is what the aggressor loses. -/
theorem scan_total_quantity (c : InternalOrder → InternalOrder → Bool) (l : InternalOrders)
    (a : Order) :
    total_quantity (scan c l a).opposing + (a.quantity - (scan c l a).aggr.quantity) =
      total_quantity l := by
  induction l generalizing a with
  | nil => simp [scan_nil]
  | cons x tl ih =>
    obtain ⟨ro, rq⟩ := x
    rcases scan_cases c ro a with h | ⟨h1, h2⟩
    · simp [scan_cons_stop c ro rq tl a h]
    · rw [scan_cons_step c ro rq tl a h1 h2]
      have i1 := ih { a with quantity := a.quantity - min rq a.quantity }
      have i2 := (scan_aggr c tl { a with quantity := a.quantity - min rq a.quantity }).2.2
      simp only [total_quantity_cons] at i1 i2 ⊢
      have hm1 : min rq a.quantity ≤ rq := Nat.min_le_left _ _
      have hm2 : min rq a.quantity ≤ a.quantity := Nat.min_le_right _ _
      omega

theorem _execute_order_total (c : InternalOrder → InternalOrder → Bool)
    (opp same : InternalOrders) (a : Order) :
    (_execute_order c opp same a).aggr_order.quantity ≤ a.quantity ∧
      total_quantity (_execute_order c opp same a).opposing_orders +
          (a.quantity - (_execute_order c opp same a).aggr_order.quantity) =
        total_quantity opp ∧
      total_quantity (_execute_order c opp same a).same_side_orders =
        total_quantity same + (_execute_order c opp same a).aggr_order.quantity := by
  by_cases h : opp = []
  · subst h
    rw [_execute_order_nil]
    simp [total_quantity_insert]
  · rw [_execute_order_of_ne c opp same a h]
    simp only
    refine ⟨(scan_aggr c opp a).2.2, ?_, ?_⟩
    · have hsplit := List.take_append_drop (scan c opp a).exhausted_rest_orders
        (scan c opp a).opposing
      have hz : total_quantity
          ((scan c opp a).opposing.take (scan c opp a).exhausted_rest_orders) = 0 := by
        apply total_quantity_zero
        intro e he
        obtain ⟨i, hi, hget⟩ := List.getElem_of_mem he
        rw [List.length_take] at hi
        have hget1 : (scan c opp a).opposing[i]? = some e := by
          rw [List.getElem_take] at hget
          rw [← hget]
          exact List.getElem?_eq_getElem (by omega)
        exact (((scan_exhausted_front c opp a).2.2 i e hget1).1 (by omega)).2
      have htot := scan_total_quantity c opp a
      rw [← hsplit, total_quantity_append, hz] at htot
      omega
    · split
      · rename_i h0; rw [h0]; rfl
      · rw [total_quantity_insert]

/-- C17 (book-level conservation): with `filled` the incoming quantity minus the unfilled
remainder, the total resting quantity of the opposing book after `execute_order` is its
total before minus `filled`, and the total of the same-side book after is its total before
plus the remainder. -/
theorem book_level_conservation (m : Market) (order : Order) :
    (raw_execute m order).aggr_order.quantity ≤ order.quantity ∧
      order.quantity - (raw_execute m order).aggr_order.quantity ≤
        total_quantity (m.opposing order.side) ∧
      total_quantity ((execute_order m order).2.opposing order.side) =
        total_quantity (m.opposing order.side) -
          (order.quantity - (raw_execute m order).aggr_order.quantity) ∧
      total_quantity ((execute_order m order).2.same_side order.side) =
        total_quantity (m.same_side order.side) +
          (raw_execute m order).aggr_order.quantity := by
  obtain ⟨hb1, hb2⟩ := execute_order_books m order
  rw [hb1, hb2, raw_execute_eq]
  obtain ⟨h1, h2, h3⟩ := _execute_order_total (same_comp order.side) (m.opposing order.side)
    (m.same_side order.side) order
  exact ⟨h1, by omega, by omega, h3⟩

/-! ## The market is never crossed -/

theorem scan_keys (c : InternalOrder → InternalOrder → Bool) (l : InternalOrders) (a : Order) :
    (scan c l a).opposing.map Prod.fst = l.map Prod.fst := by
  induction l generalizing a with
  | nil => rfl
  | cons x tl ih =>
    obtain ⟨ro, rq⟩ := x
    rcases scan_cases c ro a with h | ⟨h1, h2⟩
    · rw [scan_cons_stop c ro rq tl a h]
    · rw [scan_cons_step c ro rq tl a h1 h2]
      simp [ih]

/-- When the loop leaves a remainder, every visited entry was exhausted, so the book after
the erase is the unvisited part of the old book, and its front entry, if any, has a price
that is not acceptable. -/
theorem scan_unfilled (c : InternalOrder → InternalOrder → Bool) (l : InternalOrders)
    (a : Order) (hrem : (scan c l a).aggr.quantity ≠ 0) :
    (scan c l a).opposing.drop (scan c l a).exhausted_rest_orders =
        l.drop (scan c l a).exhausted_rest_orders ∧
      ∀ e ∈ (l.drop (scan c l a).exhausted_rest_orders).head?,
        c e.1 a.toInternalOrder = true := by
  induction l generalizing a with
  | nil => simp [scan_nil]
  | cons x tl ih =>
    obtain ⟨ro, rq⟩ := x
    rcases scan_cases c ro a with h | ⟨h1, h2⟩
    · rw [scan_cons_stop c ro rq tl a h] at hrem ⊢
      simp only [List.drop_zero, List.head?_cons, Option.mem_def, Option.some.injEq,
        forall_eq', true_and]
      rcases h with h | h
      · exact h
      · exact absurd h hrem
    · rw [scan_cons_step c ro rq tl a h1 h2] at hrem ⊢
      simp only at hrem ⊢
      by_cases hz : rq - min rq a.quantity = 0
      · simp only [hz, if_true]
        rw [Nat.add_comm]
        simpa only [List.drop_succ_cons] using
          ih { a with quantity := a.quantity - min rq a.quantity } hrem
      · have hlt : a.quantity < rq := by
          rcases Nat.lt_or_ge a.quantity rq with h | h
          · exact h
          · rw [Nat.min_eq_left h] at hz; omega
        have hmin : min rq a.quantity = a.quantity := Nat.min_eq_right (Nat.le_of_lt hlt)
        have h0 : ({ a with quantity := a.quantity - min rq a.quantity } : Order).quantity = 0 := by
          simp only [hmin]; omega
        rw [scan_exhausted c _ _ h0] at hrem
        exact absurd h0 hrem

theorem multimap_insert_mem (c : InternalOrder → InternalOrder → Bool) (k : InternalOrder)
    (q : Nat) (l : InternalOrders) (e : InternalOrder × Nat) :
    e ∈ multimap_insert c k q l ↔ e = (k, q) ∨ e ∈ l := by
  obtain ⟨pre, post, h1, h2, -⟩ := multimap_insert_split c k q l
  rw [h2, h1]
  simp only [List.mem_append, List.mem_cons]
  tauto

/-- When the remainder of the aggressor comes to rest, no entry left in an ordered opposing
book has a price acceptable to it. -/
theorem _execute_order_rest_uncrossed (c copp : InternalOrder → InternalOrder → Bool)
    (hco : comp_opposed c copp) (opp same : InternalOrders) (a : Order)
    (hopp : List.Pairwise (fun x y : InternalOrder × Nat => copp y.1 x.1 = false) opp)
    (hrest : opp = [] ∨ (_execute_order c opp same a).aggr_order.quantity ≠ 0) :
    ∀ y ∈ (_execute_order c opp same a).opposing_orders, c y.1 a.toInternalOrder = true := by
  by_cases h : opp = []
  · subst h
    simp [_execute_order_nil]
  · have hq : (scan c opp a).aggr.quantity ≠ 0 := by
      rcases hrest with h0 | h0
      · exact absurd h0 h
      · rwa [(_execute_order_trades c opp same a).2] at h0
    rw [_execute_order_opposing]
    obtain ⟨hd, hhead⟩ := scan_unfilled c opp a hq
    rw [hd]
    have hsorted : List.Pairwise (fun x y : InternalOrder × Nat => copp y.1 x.1 = false)
        (opp.drop (scan c opp a).exhausted_rest_orders) :=
      hopp.sublist (List.drop_sublist _ _)
    intro y hy
    cases hl : opp.drop (scan c opp a).exhausted_rest_orders with
    | nil => rw [hl] at hy; cases hy
    | cons x tl =>
      rw [hl] at hy hhead hsorted
      have hx : c x.1 a.toInternalOrder = true := hhead x (by simp)
      rcases List.mem_cons.1 hy with rfl | hy1
      · exact hx
      · exact hco x.1 y.1 _ hx ((List.pairwise_cons.1 hsorted).1 y hy1)

/-- One call of `_execute_order` keeps the two books uncrossed. -/
theorem _execute_order_uncrossed (c copp : InternalOrder → InternalOrder → Bool)
    (hco : comp_opposed c copp) (opp same : InternalOrders) (a : Order)
    (hopp : List.Pairwise (fun x y : InternalOrder × Nat => copp y.1 x.1 = false) opp)
    (hU : ∀ x ∈ same, ∀ y ∈ opp, c y.1 x.1 = true) :
    ∀ x ∈ (_execute_order c opp same a).same_side_orders,
      ∀ y ∈ (_execute_order c opp same a).opposing_orders, c y.1 x.1 = true := by
  by_cases h : opp = []
  · subst h
    simp [_execute_order_nil]
  · intro x hx y hy
    have hy0 : ∃ y0 ∈ opp, y0.1 = y.1 := by
      rw [_execute_order_opposing] at hy
      have h1 : y.1 ∈ (scan c opp a).opposing.map Prod.fst :=
        List.mem_map_of_mem _ (List.mem_of_mem_drop hy)
      rw [scan_keys] at h1
      obtain ⟨y0, hy0, heq⟩ := List.mem_map.1 h1
      exact ⟨y0, hy0, heq⟩
    obtain ⟨y0, hy0m, hy0k⟩ := hy0
    have hold : x ∈ same → c y.1 x.1 = true := fun hxs => by
      rw [← hy0k]; exact hU x hxs y0 hy0m
    by_cases hq : (_execute_order c opp same a).aggr_order.quantity = 0
    · have hsame : (_execute_order c opp same a).same_side_orders = same := by
        rw [_execute_order_of_ne c opp same a h] at hq ⊢
        simp only at hq ⊢
        rw [if_pos hq]
      rw [hsame] at hx
      exact hold hx
    · have hnew := _execute_order_rest_uncrossed c copp hco opp same a hopp (Or.inr hq) y hy
      rw [_execute_order_of_ne c opp same a h] at hq hx
      simp only at hq hx
      rw [if_neg hq] at hx
      rcases (multimap_insert_mem c _ _ same x).1 hx with rfl | hxs
      · simp only
        rw [(scan_aggr c opp a).1]
        exact hnew
      · exact hold hxs

theorem BuyComp_opposed : comp_opposed BuyComp SellComp := by
  intro e e1 k h1 h2
  simp only [BuyComp, SellComp, gt_iff_lt, decide_eq_true_eq, decide_eq_false_iff_not] at *
  omega

theorem SellComp_opposed : comp_opposed SellComp BuyComp := by
  intro e e1 k h1 h2
  simp only [BuyComp, SellComp, gt_iff_lt, decide_eq_true_eq, decide_eq_false_iff_not] at *
  omega

theorem execute_order_uncrossed (m : Market) (order : Order)
    (hb : List.Pairwise (fun a b : InternalOrder × Nat => BuyComp b.1 a.1 = false) m.buy_orders)
    (hs : List.Pairwise (fun a b : InternalOrder × Nat => SellComp b.1 a.1 = false)
      m.sell_orders)
    (hu : m.uncrossed) : (execute_order m order).2.uncrossed := by
  unfold Market.uncrossed at hu ⊢
  by_cases hside : order.side = BUY_SIDE
  · have hU : ∀ x ∈ m.buy_orders, ∀ y ∈ m.sell_orders, BuyComp y.1 x.1 = true := by
      intro x hx y hy
      have := hu x hx y hy
      simp only [BuyComp, gt_iff_lt, decide_eq_true_eq]
      exact this
    have h := _execute_order_uncrossed BuyComp SellComp BuyComp_opposed m.sell_orders
      m.buy_orders order hs hU
    simp only [execute_order, raw_execute, hside, if_true]
    intro b hb1 s hs1
    have := h b hb1 s hs1
    simpa [BuyComp] using this
  · have hU : ∀ x ∈ m.sell_orders, ∀ y ∈ m.buy_orders, SellComp y.1 x.1 = true := by
      intro x hx y hy
      have := hu y hy x hx
      simp only [SellComp, decide_eq_true_eq]
      exact this
    have h := _execute_order_uncrossed SellComp BuyComp SellComp_opposed m.buy_orders
      m.sell_orders order hb hU
    simp only [execute_order, raw_execute, hside, if_false]
    intro b hb1 s hs1
    have := h s hs1 b hb1
    simpa [SellComp] using this

theorem run_snoc (m : Market) (os : List Order) (o : Order) :
    run m (os ++ [o]) = (execute_order (run m os) o).2 := by
  induction os generalizing m with
  | nil => rfl
  | cons x xs ih =>
    show run (execute_order m x).2 (xs ++ [o]) = _
    rw [ih]
    rfl

/-- Every market reached from empty books is uncrossed. -/
theorem run_uncrossed (os : List Order) : (run Market.empty os).uncrossed := by
  induction os using List.reverseRecOn with
  | nil => intro b hb; cases hb
  | append_singleton os o ih =>
    rw [run_snoc]
    exact execute_order_uncrossed _ o (run_sorted os).1 (run_sorted os).2 ih

/-- C15 (never crossed): in every market reached from empty books by `execute_order`
calls, every resting bid is priced strictly below every resting ask, in particular the
front bid below the front ask when both books are non-empty; and whenever the next order
comes to rest (the opposing book is empty or a remainder is left), no entry left in the
opposing book has a price acceptable to it. -/
theorem book_never_crossed (os : List Order) :
    (∀ b tb s ts, (run Market.empty os).buy_orders = b :: tb →
      (run Market.empty os).sell_orders = s :: ts → b.1.price < s.1.price) ∧
      (∀ b ∈ (run Market.empty os).buy_orders, ∀ s ∈ (run Market.empty os).sell_orders,
        b.1.price < s.1.price) ∧
      (∀ order : Order,
        ((run Market.empty os).opposing order.side = [] ∨
          (raw_execute (run Market.empty os) order).aggr_order.quantity ≠ 0) →
        ∀ e ∈ (execute_order (run Market.empty os) order).2.opposing order.side,
          price_acceptable order.side e.1 order.toInternalOrder = false) := by
  have hu := run_uncrossed os
  obtain ⟨hb, hs⟩ := run_sorted os
  refine ⟨?_, hu, ?_⟩
  · intro b tb s ts h1 h2
    exact hu b (by rw [h1]; simp) s (by rw [h2]; simp)
  · intro order hrest e he
    rw [(execute_order_books _ order).1] at he
    rw [raw_execute_eq] at hrest he
    by_cases hside : order.side = BUY_SIDE
    · simp only [same_comp, Market.opposing, Market.same_side, hside, if_true] at hrest he
      have := _execute_order_rest_uncrossed BuyComp SellComp BuyComp_opposed _ _ order hs
        hrest e he
      simp [price_acceptable, hside, this]
    · simp only [same_comp, Market.opposing, Market.same_side, hside, if_false] at hrest he
      have := _execute_order_rest_uncrossed SellComp BuyComp SellComp_opposed _ _ order hb
        hrest e he
      simp [price_acceptable, hside, this]

/-- Witness of C15: after `Sell(Ann, 5, 12)` and `Sell(Bob, 5, 15)`, the order
`Buy(Cat, 8, 13)` takes Ann's 5 and rests with 3@13 below Bob's ask at 15. -/
theorem book_never_crossed_witness :
    (∀ e ∈ (execute_order (run Market.empty [Sell "Ann" 5 12, Sell "Bob" 5 15])
        (Buy "Cat" 8 13)).2.opposing (Buy "Cat" 8 13).side,
      price_acceptable (Buy "Cat" 8 13).side e.1 (Buy "Cat" 8 13).toInternalOrder = false) ∧
    (execute_order (run Market.empty [Sell "Ann" 5 12, Sell "Bob" 5 15]) (Buy "Cat" 8 13)).2 =
      ⟨[(⟨"Cat", 13⟩, 3)], [(⟨"Bob", 15⟩, 5)]⟩ :=
  ⟨(book_never_crossed [Sell "Ann" 5 12, Sell "Bob" 5 15]).2.2 (Buy "Cat" 8 13)
      (Or.inr (by decide)),
    by decide⟩

end TradeMatching
